import Mathlib

/-!
Verification of the toast manifest validator (`src/toastfile.rs`) and the
subprocess wrappers of the container runtime adapter (`src/docker.rs`).

Paths are modelled as strings; on Unix, `Path::is_absolute` holds exactly
when the path begins with `/`.  Rust `HashMap`s are modelled as association
lists with pairwise-distinct keys (an inherent invariant of `HashMap`);
where a claim needs key distinctness it appears as an explicit hypothesis.
The `format::series` helper and `CodeStr::code_str` live in the repository's
`format` module, which is not part of the provided sources; they are
modelled from the specification (grammatical series "A, B, and C"; code
fragments quoted in backticks).
-/

namespace Toast

deriving instance DecidableEq for Except

/-- `CodeStr::code_str`.  Modelled from the spec: the `format` module is not
among the provided sources; the spec's examples quote code fragments in
backticks ("reads \x22`foo` depends on itself.\x22"). -/
def cs (s : String) : String := "`" ++ s ++ "`"

/-- Tail of the grammatical series: `seriesRest ["b", "c"] = "b, and c"`. -/
def seriesRest : List String → String
  | [] => ""
  | [y] => "and " ++ y
  | y :: ys => y ++ ", " ++ seriesRest ys

/-- `format::series`.  Modelled from the spec: the `format` module is not
among the provided sources; the spec fixes "a stable grammatical \x22series\x22
format (\x22A, B, and C\x22)" and the two-element form "`X` and `Y`". -/
def series : List String → String
  | [] => ""
  | [x] => x
  | [x, y] => x ++ " and " ++ y
  | x :: xs => x ++ ", " ++ seriesRest xs

/-- Substring containment, stated over the underlying character lists. -/
def StrContains (m sub : String) : Prop :=
  ∃ a b : List Char, m.data = a ++ sub.data ++ b

/-- Boolean prefix test on character lists. -/
def prefixB : List Char → List Char → Bool
  | [], _ => true
  | _ :: _, [] => false
  | a :: as, b :: bs => a == b && prefixB as bs

/-- Boolean infix test on character lists. -/
def infixB (sub : List Char) : List Char → Bool
  | [] => prefixB sub []
  | b :: bs => prefixB sub (b :: bs) || infixB sub bs

/-! ## Data model (`Task`, `Toastfile`) -/

/-- The default location for commands and files copied into the container. -/
def DEFAULT_LOCATION : String := "/scratch"

/-- The default user for commands and files copied into the container. -/
def DEFAULT_USER : String := "root"

/-- A task of the manifest (struct `Task`). -/
structure Task where
  dependencies : List String := []
  cache : Bool := true
  environment : List (String × Option String) := []
  watch : Bool := false
  input_paths : List String := []
  output_paths : List String := []
  ports : List String := []
  location : String := DEFAULT_LOCATION
  user : String := DEFAULT_USER
  command : Option String := none
  deriving Repr, DecidableEq

/-- A manifest (struct `Toastfile`). -/
structure Toastfile where
  image : String
  default : Option String
  tasks : List (String × Task)
  deriving Repr, DecidableEq

/-- `Path::is_absolute` for Unix paths: the path begins with `/`. -/
def isAbsolute (p : String) : Bool :=
  match p.data with
  | [] => false
  | c :: _ => c == '/' 

/-! ## YAML layer

The deserializer consumes a parsed value tree (YAML tokenization is out of
scope per the spec).  Modelled from the spec: serde's derived strict-mode
deserialization (`deny_unknown_fields`, field defaults) is external library
behaviour; the schema, field names and default values are those of the
`Task` and `Toastfile` struct declarations in `src/toastfile.rs`. -/

inductive Yaml where
  | str (v : String)
  | bool (v : Bool)
  | null
  | seq (items : List Yaml)
  | map (entries : List (String × Yaml))

def toastfileKeys : List String := ["image", "default", "tasks"]

def taskKeys : List String :=
  ["dependencies", "cache", "environment", "watch", "input_paths",
   "output_paths", "ports", "location", "user", "command"]

def getField (es : List (String × Yaml)) (k : String) : Option Yaml :=
  (es.find? (fun e => e.1 == k)).map (·.2)

def asString : Yaml → Except String String
  | .str v => .ok v
  | _ => .error "invalid type: expected a string"

def asBool : Yaml → Except String Bool
  | .bool v => .ok v
  | _ => .error "invalid type: expected a boolean"

def asStringList (y : Yaml) : Except String (List String) :=
  match y with
  | .seq items => items.mapM asString
  | _ => .error "invalid type: expected a sequence"

def asEnvEntry (e : String × Yaml) : Except String (String × Option String) :=
  match e.2 with
  | .null => .ok (e.1, none)
  | .str v => .ok (e.1, some v)
  | _ => .error "invalid type: expected a string or null"

def asEnv (y : Yaml) : Except String (List (String × Option String)) :=
  match y with
  | .map es => es.mapM asEnvEntry
  | _ => .error "invalid type: expected a map"

def asOptString (y : Yaml) : Except String (Option String) :=
  match y with
  | .null => .ok none
  | .str v => .ok (some v)
  | _ => .error "invalid type: expected a string or null"

/-- A field with a serde default: absent means the default value. -/
def optField (es : List (String × Yaml)) (k : String)
    (f : Yaml → Except String α) (dflt : α) : Except String α :=
  match getField es k with
  | none => .ok dflt
  | some y => f y

/-- Deserialize a `Task` (strict: unknown fields rejected). -/
def deserializeTask (y : Yaml) : Except String Task :=
  match y with
  | .map es =>
    if es.all (fun e => taskKeys.contains e.1) then do
      let dependencies ← optField es "dependencies" asStringList []
      let cache ← optField es "cache" asBool true
      let environment ← optField es "environment" asEnv []
      let watch ← optField es "watch" asBool false
      let input_paths ← optField es "input_paths" asStringList []
      let output_paths ← optField es "output_paths" asStringList []
      let ports ← optField es "ports" asStringList []
      let location ← optField es "location" asString DEFAULT_LOCATION
      let user ← optField es "user" asString DEFAULT_USER
      let command ← optField es "command" asOptString none
      .ok { dependencies, cache, environment, watch, input_paths,
            output_paths, ports, location, user, command }
    else .error "unknown field"
  | _ => .error "invalid type: expected a map"

/-- Deserialize a `Toastfile` (strict: unknown fields rejected). -/
def deserializeToastfile (y : Yaml) : Except String Toastfile :=
  match y with
  | .map es =>
    if es.all (fun e => toastfileKeys.contains e.1) then do
      let image ← match getField es "image" with
        | none => .error "missing field image"
        | some v => asString v
      let dflt ← optField es "default" asOptString none
      let tasks ← match getField es "tasks" with
        | none => .error "missing field tasks"
        | some (.map ts) => ts.mapM (fun e => (deserializeTask e.2).map ((e.1, ·)))
        | some _ => .error "invalid type: expected a map"
      .ok { image := image, default := dflt, tasks := tasks }
    else .error "unknown field"
  | _ => .error "invalid type: expected a map"

/-! ## `check_paths` -/

/-- The message for a path-kind violation with field label `f` (the label
`"location"` is the relative-path case, the other two labels the
absolute-path cases; `"ouput_path"` reproduces the source's spelling). -/
def pathViolationMsg (n f p : String) : String :=
  match f with
  | "location" =>
    "Task " ++ cs n ++ " has a relative " ++ cs f ++ ": " ++ cs p ++ "."
  | _ =>
    "Task " ++ cs n ++ " has an absolute " ++ cs f ++ ": " ++ cs p ++ "."

/-- Body of `check_paths`: scan the tasks, returning the first violation. -/
def checkPathsTasks : List (String × Task) → Except String Unit
  | [] => .ok ()
  | (name, task) :: rest =>
    match task.input_paths.find? (fun p => isAbsolute p) with
    | some p =>
      .error ("Task " ++ cs name ++ " has an absolute " ++ cs "input_path"
        ++ ": " ++ cs p ++ ".")
    | none =>
      match task.output_paths.find? (fun p => isAbsolute p) with
      | some p =>
        .error ("Task " ++ cs name ++ " has an absolute " ++ cs "ouput_path"
          ++ ": " ++ cs p ++ ".")
      | none =>
        if !(isAbsolute task.location) then
          .error ("Task " ++ cs name ++ " has a relative " ++ cs "location"
            ++ ": " ++ cs task.location ++ ".")
        else
          checkPathsTasks rest

/-- `check_paths`. -/
def checkPaths (toastfile : Toastfile) : Except String Unit :=
  checkPathsTasks toastfile.tasks

/-! ## `check_caching` -/

/-- Body of `check_caching`: scan the tasks, returning the first violation. -/
def checkCachingTasks : List (String × Task) → Except String Unit
  | [] => .ok ()
  | (name, task) :: rest =>
    if !task.ports.isEmpty && task.cache then
      .error ("Task " ++ cs name ++ " exposes ports but does not disable "
        ++ "caching. To fix this, set " ++ cs "cache: false"
        ++ " for this task.")
    else if task.watch && task.cache then
      .error ("Task " ++ cs name ++ " watches the filesystem but does not "
        ++ "disable caching. To fix this, set " ++ cs "cache: false"
        ++ " for this task.")
    else
      checkCachingTasks rest

/-- `check_caching`. -/
def checkCaching (toastfile : Toastfile) : Except String Unit :=
  checkCachingTasks toastfile.tasks

/-! ## `environment`

The host environment (`std::env::var`) is modelled as a function from
variable names to optional values. -/

/-- The loop of `environment`, returning the accumulated violations and the
resolved entries, both in iteration order. -/
def envLoop (hostEnv : String → Option String) :
    List (String × Option String) → List String × List (String × String)
  | [] => ([], [])
  | (arg, dflt) :: rest =>
    let (vs, res) := envLoop hostEnv rest
    match dflt with
    | some d =>
      (vs, (arg, (hostEnv arg).getD d) :: res)
    | none =>
      match hostEnv arg with
      | some v => (vs, (arg, v) :: res)
      | none => (arg :: vs, res)

/-- `environment`: fetch the variables for a task from the host environment. -/
def environment (hostEnv : String → Option String) (task : Task) :
    Except (List String) (List (String × String)) :=
  let vr := envLoop hostEnv task.environment
  if vr.1.isEmpty then .ok vr.2 else .error vr.1

/-! ## `check_dependencies`: missing dependencies and invalid default -/

/-- Key lookup in the task map. -/
def lookupTask (tasks : List (String × Task)) (name : String) : Option Task :=
  (tasks.find? (fun p => p.1 == name)).map (·.2)

/-- Key membership in the task map (`tasks.contains_key`). -/
def isKeyB (tasks : List (String × Task)) (name : String) : Bool :=
  tasks.any (fun p => p.1 == name)

/-- The map from task to its invalid dependencies, in iteration order. -/
def violationsOf (tasks : List (String × Task)) : List (String × List String) :=
  tasks.filterMap (fun p =>
    let missing := p.2.dependencies.filter (fun d => !(isKeyB tasks d))
    if missing.isEmpty then none else some (p.1, missing))

/-- The rendered series of a violations map. -/
def violationsSeries (violations : List (String × List String)) : String :=
  series (violations.map (fun q =>
    cs q.1 ++ " (" ++ series (q.2.map (fun d => cs d)) ++ ")"))

/-! ## `check_dependencies`: cycle detection

The traversal's mutable state.  The ancestor stack is bottom-first (its
last element is the top); the ancestor set of the source is modelled as
membership in the stack (the source keeps set and stack in lockstep).  The
frontier is head-first (its head is the top of the `Vec`). -/
structure CDState where
  frontier : List (String × Nat)
  stack : List String
  visited : List String
  deriving Repr, DecidableEq

/-- The cycle reported on detection: the source walks an iterator over the
ancestor stack past the first occurrence of the offending task, collects
the remainder, and appends the task again. -/
def cycleOfStack (stack : List String) (task : String) : List String :=
  (stack.dropWhile (fun x => x != task)).drop 1 ++ [task]

/-- The three cycle phrasings of `check_dependencies`, by cycle length. -/
def renderCycle : List String → String
  | [c] => cs c ++ " depends on itself."
  | [c0, c1] => cs c0 ++ " and " ++ cs c1 ++ " depend on each other."
  | c =>
    series ((c.zip (c.drop 1 ++ c.take 1)).map
      (fun p => cs p.1 ++ " depends on " ++ cs p.2)) ++ "."

/-- The full error message on cycle detection. -/
def cyclicMsg (stack : List String) (task : String) : String :=
  "The dependencies are cyclic. " ++ renderCycle (cycleOfStack stack task)

/-- Result of the cycle-detection traversal.  `panicked` marks the two
partiality points of the source (`usize` underflow of
`ancestors_stack.len() - task_depth`, and the `toastfile.tasks[task]`
index); `fuelOut` marks exhaustion of the fuel that makes the `while` loop
structurally recursive.  Both are proven unreachable. -/
inductive InnerRes where
  | ok (visited : List String)
  | cyclic (msg : String)
  | panicked
  | fuelOut
  deriving Repr, DecidableEq

/-- The `while !frontier.is_empty()` loop of `check_dependencies`. -/
def innerLoop (tasks : List (String × Task)) : Nat → CDState → InnerRes
  | 0, _ => .fuelOut
  | _ + 1, ⟨[], _, visited⟩ => .ok visited
  | n + 1, ⟨(task, taskDepth) :: rest, stack, visited⟩ =>
    if taskDepth ≤ stack.length then
      let stack' := stack.take taskDepth
      if stack'.contains task then
        .cyclic (cyclicMsg stack' task)
      else if visited.contains task then
        innerLoop tasks n ⟨rest, stack', visited⟩
      else
        match lookupTask tasks task with
        | none => .panicked
        | some t =>
          innerLoop tasks n
            ⟨(t.dependencies.reverse.map (fun d => (d, taskDepth + 1))) ++ rest,
             stack' ++ [task], task :: visited⟩
    else .panicked

/-- Fuel sufficient for a full traversal (proven sufficient below). -/
def cycleFuel (tasks : List (String × Task)) : Nat :=
  ((tasks.map (fun p => p.2.dependencies.length + 1)).sum) + 2

/-- Overall result of the cycle-detection phase. -/
inductive CycleRes where
  | okRes
  | cyclic (msg : String)
  | panicked
  | fuelOut
  deriving Repr, DecidableEq

/-- The `for task in toastfile.tasks.keys()` loop around the traversal. -/
def cycleOuter (tasks : List (String × Task)) :
    List String → List String → CycleRes
  | [], _ => .okRes
  | t :: ts, visited =>
    match innerLoop tasks (cycleFuel tasks) ⟨[(t, 0)], [], visited⟩ with
    | .ok visited' => cycleOuter tasks ts visited'
    | .cyclic m => .cyclic m
    | .panicked => .panicked
    | .fuelOut => .fuelOut

/-- The acyclicity check of `check_dependencies`. -/
def cycleCheck (tasks : List (String × Task)) : CycleRes :=
  cycleOuter tasks (tasks.map Prod.fst) []

/-- `check_dependencies`: missing dependencies, invalid default, cycles. -/
def checkDependencies (toastfile : Toastfile) : Except String Unit :=
  let validDefault : Bool :=
    match toastfile.default with
    | none => true
    | some d => isKeyB toastfile.tasks d
  let violations := violationsOf toastfile.tasks
  if violations.isEmpty then
    if validDefault then
      match cycleCheck toastfile.tasks with
      | .okRes => .ok ()
      | .cyclic m => .error m
      | .panicked => .error "internal panic"
      | .fuelOut => .error "internal panic"
    else
      .error ("The default task " ++ cs ((toastfile.default).getD "")
        ++ " does not exist.")
  else
    if validDefault then
      .error ("The following tasks have invalid dependencies: "
        ++ violationsSeries violations ++ ".")
    else
      .error ("The default task " ++ cs ((toastfile.default).getD "")
        ++ " does not exist, and the following tasks have invalid "
        ++ "dependencies: " ++ violationsSeries violations ++ ".")

/-- `parse`: deserialize, then run the three validators in order. -/
def parse (y : Yaml) : Except String Toastfile := do
  let toastfile ← deserializeToastfile y
  let _ ← checkPaths toastfile
  let _ ← checkCaching toastfile
  let _ ← checkDependencies toastfile
  .ok toastfile

/-! ## Subprocess wrappers (`src/docker.rs`)

The four execution modes are modelled from the point where the spawned
child has completed (the spinner, the spawn itself, and its `map_err` path
carry no classification logic).  `out` is the completed child's observable
outcome; `wasInterrupted` is the value the wrapper loaded from the
interruption flag before spawning, `nowInterrupted` the value it loads
after the wait.  Each wrapper returns its result together with the value
the interruption flag holds afterwards. -/

/-- Observable outcome of a completed child process. -/
structure ChildOutcome where
  success : Bool
  code : Option Int
  stdout : String
  stderr : String
  deriving Repr, DecidableEq

/-- The failure taxonomy (`failure::Failure`). -/
inductive Failure where
  | interrupted
  | user (msg : String) (hint : Option String)
  | system (msg : String) (hint : Option String)
  deriving Repr, DecidableEq

/-- `run_quiet`: classification of a completed child. -/
def runQuiet (error : String) (out : ChildOutcome)
    (wasInterrupted nowInterrupted : Bool) :
    Except Failure String × Bool :=
  if out.success then
    (.ok out.stdout, nowInterrupted)
  else if out.code.isNone || (!wasInterrupted && nowInterrupted) then
    (.error .interrupted, true)
  else
    (.error (.system (error ++ " Details:\n" ++ out.stderr) none),
     nowInterrupted)

/-- `run_quiet_stdin`: the stdin writer runs while the child is alive; its
failure propagates, otherwise the classification matches `run_quiet`. -/
def runQuietStdin (error : String) (writer : Except Failure Unit)
    (out : ChildOutcome) (wasInterrupted nowInterrupted : Bool) :
    Except Failure String × Bool :=
  match writer with
  | .error f => (.error f, nowInterrupted)
  | .ok () =>
    if out.success then
      (.ok out.stdout, nowInterrupted)
    else if out.code.isNone || (!wasInterrupted && nowInterrupted) then
      (.error .interrupted, true)
    else
      (.error (.system (error ++ " Details:\n" ++ out.stderr) none),
       nowInterrupted)

/-- `run_loud_stdin`: output streams flow to the terminal, so the `System`
failure carries only the error message. -/
def runLoudStdin (error : String) (writer : Except Failure Unit)
    (out : ChildOutcome) (wasInterrupted nowInterrupted : Bool) :
    Except Failure Unit × Bool :=
  match writer with
  | .error f => (.error f, nowInterrupted)
  | .ok () =>
    if out.success then
      (.ok (), nowInterrupted)
    else if out.code.isNone || (!wasInterrupted && nowInterrupted) then
      (.error .interrupted, true)
    else
      (.error (.system error none), nowInterrupted)

/-- `run_attach`: full stream passthrough; the `System` failure carries only
the error message. -/
def runAttach (error : String) (out : ChildOutcome)
    (wasInterrupted nowInterrupted : Bool) :
    Except Failure Unit × Bool :=
  if out.success then
    (.ok (), nowInterrupted)
  else if out.code.isNone || (!wasInterrupted && nowInterrupted) then
    (.error .interrupted, true)
  else
    (.error (.system error none), nowInterrupted)

/-! ## Semantic predicates about a manifest -/

/-- The dependency relation over the tasks: `a` depends on `b`. -/
def depEdge (tasks : List (String × Task)) (a b : String) : Prop :=
  ∃ t, lookupTask tasks a = some t ∧ b ∈ t.dependencies

/-- Acyclicity of the dependency relation. -/
def Acyclic (tasks : List (String × Task)) : Prop :=
  ∀ a, ¬ Relation.TransGen (depEdge tasks) a a

/-- Every dependency of every task names a task of the map. -/
def Resolve (tasks : List (String × Task)) : Prop :=
  ∀ p ∈ tasks, ∀ d ∈ p.2.dependencies, d ∈ tasks.map Prod.fst

/-- The `default` field, when present, names a task of the map. -/
def ValidDefault (toastfile : Toastfile) : Prop :=
  ∀ d, toastfile.default = some d → d ∈ toastfile.tasks.map Prod.fst

/-- A path-kind violation: task `n` has `p` as an offending path in the
field labelled `f` by the error message. -/
def PathViolationL (tasks : List (String × Task)) (n f p : String) : Prop :=
  ∃ t, (n, t) ∈ tasks ∧
    ((f = "input_path" ∧ p ∈ t.input_paths ∧ isAbsolute p = true) ∨
     (f = "ouput_path" ∧ p ∈ t.output_paths ∧ isAbsolute p = true) ∨
     (f = "location" ∧ p = t.location ∧ isAbsolute p = false))

/-- The first path-kind violation in iteration order, as
`(task, field label, path)`. -/
def firstPathViolation : List (String × Task) → Option (String × String × String)
  | [] => none
  | (name, task) :: rest =>
    match task.input_paths.find? (fun p => isAbsolute p) with
    | some p => some (name, "input_path", p)
    | none =>
      match task.output_paths.find? (fun p => isAbsolute p) with
      | some p => some (name, "ouput_path", p)
      | none =>
        if !(isAbsolute task.location) then
          some (name, "location", task.location)
        else
          firstPathViolation rest

/-- Unknown keys at either level of the manifest value tree. -/
def HasUnknownKey (y : Yaml) : Prop :=
  match y with
  | .map es =>
    (∃ q ∈ es, q.1 ∉ toastfileKeys) ∨
    (∃ ts, getField es "tasks" = some (.map ts) ∧
      ∃ q ∈ ts, ∃ tes, q.2 = .map tes ∧ ∃ r ∈ tes, r.1 ∉ taskKeys)
  | _ => False

/-- A caching violation of a task: `cache` is on together with ports or
file watching. -/
def CachingBad (t : Task) : Prop :=
  (t.ports ≠ [] ∨ t.watch = true) ∧ t.cache = true

/-! ## Invariants of the cycle-detection traversal

The ancestor stack is bottom-first: position `i` holds the depth-`i`
ancestor.  `Pending` abstracts the frontier by a predicate `P` so that the
flushing lemmas can carry the just-popped entry as an extra pending
obligation. -/

/-- Every dependency of the stack node at position `i` is pending on the
frontier at depth `i + 1`, already finished (visited and off the stack), or
deeper on the stack. -/
def Pending (tasks : List (String × Task)) (P : String → Nat → Prop)
    (V S : List String) : Prop :=
  ∀ i u v, S[i]? = some v → depEdge tasks v u →
    P u (i + 1) ∨ (u ∈ V ∧ u ∉ S) ∨ ∃ j, i + 1 ≤ j ∧ S[j]? = some u

/-- `rank` witnesses that the finished region (visited, off the stack) is
closed under dependencies and topologically ordered. -/
def RankOk (tasks : List (String × Task)) (V S : List String)
    (rank : String → Nat) : Prop :=
  ∀ v, v ∈ V → v ∉ S → ∀ u, depEdge tasks v u →
    u ∈ V ∧ u ∉ S ∧ rank u < rank v

/-- The invariant of the inner traversal loop. -/
structure CInv (tasks : List (String × Task)) (s : CDState) : Prop where
  sub_visited : ∀ x ∈ s.stack, x ∈ s.visited
  snodup : s.stack.Nodup
  mono : s.frontier.Pairwise (fun a b => b.2 ≤ a.2)
  depth_le : ∀ p ∈ s.frontier, p.2 ≤ s.stack.length
  edge_inv : ∀ p ∈ s.frontier, 0 < p.2 →
    ∀ v, s.stack[p.2 - 1]? = some v → depEdge tasks v p.1
  chain : List.Chain' (depEdge tasks) s.stack
  pending : Pending tasks (fun u d => (u, d) ∈ s.frontier) s.visited s.stack
  rank_ex : ∃ rank, RankOk tasks s.visited s.stack rank

/-- Frontier entries name tasks of the map (panic-freedom invariant). -/
def FKeys (tasks : List (String × Task)) (s : CDState) : Prop :=
  ∀ p ∈ s.frontier, p.1 ∈ tasks.map Prod.fst

/-- Termination measure of the inner loop: pending frontier entries plus
the total weight of the unvisited tasks. -/
def measureCD (tasks : List (String × Task)) (s : CDState) : Nat :=
  s.frontier.length +
    ((tasks.filter (fun p => !(s.visited.contains p.1))).map
      (fun p => p.2.dependencies.length + 1)).sum

/-! ## Lemmas about substring containment -/

theorem data_append (a b : String) : (a ++ b).data = a.data ++ b.data := rfl

theorem strContains_refl (s : String) : StrContains s s :=
  ⟨[], [], by simp⟩

theorem strContains_of_parts {m a sub b : String} (h : m = a ++ sub ++ b) :
    StrContains m sub :=
  ⟨a.data, b.data, by subst h; simp [data_append]⟩

theorem strContains_append_right {m sub : String} (x : String)
    (h : StrContains m sub) : StrContains (m ++ x) sub := by
  obtain ⟨a, b, hab⟩ := h
  exact ⟨a, b ++ x.data, by simp [data_append, hab]⟩

theorem strContains_append_left {m sub : String} (x : String)
    (h : StrContains m sub) : StrContains (x ++ m) sub := by
  obtain ⟨a, b, hab⟩ := h
  exact ⟨x.data ++ a, b, by simp [data_append, hab]⟩

theorem prefixB_append (s t : List Char) : prefixB s (s ++ t) = true := by
  induction s with
  | nil => rfl
  | cons a as ih => simp [prefixB, ih]

theorem infixB_of_parts :
    ∀ (l a s b : List Char), l = a ++ s ++ b → infixB s l = true := by
  intro l
  induction l with
  | nil =>
    intro a s b h
    have hs : s = [] := by
      rcases List.append_eq_nil.mp ((List.append_eq_nil).mp h.symm).1 with ⟨_, h2⟩
      exact h2
    simp [infixB, hs, prefixB]
  | cons x xs ih =>
    intro a s b h
    cases a with
    | nil =>
      simp only [List.nil_append] at h
      cases s with
      | nil => simp [infixB, prefixB]
      | cons c cs =>
        simp only [List.cons_append] at h
        obtain ⟨hc, hrest⟩ := List.cons.injEq .. ▸ h
        simp only [infixB]
        rw [Bool.or_eq_true]
        refine Or.inl ?_
        rw [hc, hrest]
        exact prefixB_append (c :: cs) b
    | cons y ys =>
      simp only [List.cons_append] at h
      obtain ⟨_, hrest⟩ := List.cons.injEq .. ▸ h
      simp only [infixB]
      rw [Bool.or_eq_true]
      exact Or.inr (ih ys s b hrest)

theorem not_strContains_of_infixB {m sub : String}
    (h : infixB sub.data m.data = false) : ¬ StrContains m sub := by
  intro ⟨a, b, hab⟩
  rw [infixB_of_parts m.data a sub.data b hab] at h
  simp at h

theorem mem_seriesRest_contains {x : String} :
    ∀ {l : List String}, x ∈ l → StrContains (seriesRest l) x := by
  intro l
  induction l with
  | nil => intro h; cases h
  | cons y ys ih =>
    intro h
    rcases List.mem_cons.mp h with h | h
    · subst h
      cases ys with
      | nil => exact strContains_append_left "and " (strContains_refl x)
      | cons z zs =>
        exact strContains_append_right _ (strContains_append_right _
          (strContains_refl x))
    · cases ys with
      | nil => cases h
      | cons z zs =>
        exact strContains_append_left _ (ih h)

theorem mem_series_contains {x : String} :
    ∀ {l : List String}, x ∈ l → StrContains (series l) x := by
  intro l
  match l with
  | [] => intro h; cases h
  | [y] =>
    intro h
    rcases List.mem_cons.mp h with h | h
    · subst h; exact strContains_refl x
    · cases h
  | [y, z] =>
    intro h
    rcases List.mem_cons.mp h with h | h
    · subst h
      exact strContains_append_right _ (strContains_append_right _
        (strContains_refl x))
    · rcases List.mem_cons.mp h with h | h
      · subst h; exact strContains_append_left _ (strContains_refl x)
      · cases h
  | y :: z :: w :: ws =>
    intro h
    rcases List.mem_cons.mp h with h | h
    · subst h
      exact strContains_append_right _ (strContains_append_right _
        (strContains_refl x))
    · exact strContains_append_left _ (mem_seriesRest_contains h)

/-! ## Lemmas about `check_caching` -/

theorem except_bind_ok {α β : Type} (a : α) (f : α → Except String β) :
    (Except.ok a >>= f) = f a := rfl

theorem except_bind_error {α β : Type} (e : String) (f : α → Except String β) :
    ((Except.error e : Except String α) >>= f) = .error e := rfl

theorem isEmpty_false_of_ne_nil {α : Type} {l : List α} (h : l ≠ []) :
    l.isEmpty = false := by
  cases l with
  | nil => exact absurd rfl h
  | cons a as => rfl

theorem ne_nil_of_isEmpty_false {α : Type} {l : List α}
    (h : l.isEmpty = false) : l ≠ [] := by
  cases l with
  | nil => simp [List.isEmpty] at h
  | cons a as => simp

theorem checkCachingTasks_spec (ts : List (String × Task)) :
    (checkCachingTasks ts = .ok () ∧ ∀ p ∈ ts, ¬ CachingBad p.2) ∨
    (∃ m, checkCachingTasks ts = .error m ∧
      StrContains m (cs "cache: false") ∧ ∃ p ∈ ts, CachingBad p.2) := by
  induction ts with
  | nil => exact Or.inl ⟨rfl, by intro p hp; cases hp⟩
  | cons q rest ih =>
    obtain ⟨name, task⟩ := q
    by_cases h1 : (!task.ports.isEmpty && task.cache) = true
    · have hE : checkCachingTasks ((name, task) :: rest)
          = .error ("Task " ++ cs name ++ " exposes ports but does not disable "
            ++ "caching. To fix this, set " ++ cs "cache: false"
            ++ " for this task.") := by
        simp only [checkCachingTasks]
        rw [if_pos h1]
      refine Or.inr ⟨_, hE, strContains_of_parts rfl, (name, task),
        List.mem_cons_self _ _, ?_⟩
      rw [Bool.and_eq_true, Bool.not_eq_eq_eq_not] at h1
      exact ⟨Or.inl (ne_nil_of_isEmpty_false h1.1), h1.2⟩
    · by_cases h2 : (task.watch && task.cache) = true
      · have hE : checkCachingTasks ((name, task) :: rest)
            = .error ("Task " ++ cs name
              ++ " watches the filesystem but does not "
              ++ "disable caching. To fix this, set " ++ cs "cache: false"
              ++ " for this task.") := by
          simp only [checkCachingTasks]
          rw [if_neg h1, if_pos h2]
        refine Or.inr ⟨_, hE, strContains_of_parts rfl, (name, task),
          List.mem_cons_self _ _, ?_⟩
        rw [Bool.and_eq_true] at h2
        exact ⟨Or.inr h2.1, h2.2⟩
      · have hE : checkCachingTasks ((name, task) :: rest)
            = checkCachingTasks rest := by
          simp only [checkCachingTasks]
          rw [if_neg h1, if_neg h2]
        rcases ih with ⟨hok, hall⟩ | ⟨m, hm, hcsm, p, hp, hbad⟩
        · refine Or.inl ⟨hE.trans hok, ?_⟩
          intro p hmem
          rcases List.mem_cons.mp hmem with hq | hq
          · subst hq
            intro ⟨hor, hcache⟩
            rcases hor with hne | hwatch
            · apply h1
              rw [hcache, Bool.and_true, Bool.not_eq_eq_eq_not]
              exact isEmpty_false_of_ne_nil hne
            · exact h2 (by rw [hwatch, hcache]; rfl)
          · exact hall p hq
        · exact Or.inr ⟨m, hE.trans hm, hcsm, p, List.mem_cons_of_mem _ hp, hbad⟩

/-- C6: `parse` (via `check_caching`) rejects every manifest in which some
task enables caching while exposing ports or watching files; the rejection
message asks to set `cache: false`; and `check_caching` accepts every
manifest with no such task. -/
theorem c6_check_caching (y : Yaml) (toastfile : Toastfile) :
    (checkCaching toastfile = .ok () ↔
      ∀ p ∈ toastfile.tasks, ¬ CachingBad p.2)
    ∧ ((∃ p ∈ toastfile.tasks, CachingBad p.2) →
        ∃ m, checkCaching toastfile = .error m ∧
          StrContains m (cs "cache: false"))
    ∧ (deserializeToastfile y = .ok toastfile →
        (∃ p ∈ toastfile.tasks, CachingBad p.2) →
        (parse y).isOk = false) := by
  have hspec := checkCachingTasks_spec toastfile.tasks
  refine ⟨?_, ?_, ?_⟩
  · rcases hspec with ⟨hok, hall⟩ | ⟨m, hm, _, p, hp, hbad⟩
    · exact ⟨fun _ => hall, fun _ => hok⟩
    · constructor
      · intro h
        rw [checkCaching, hm] at h
        cases h
      · intro h
        exact absurd hbad (h p hp)
  · intro ⟨p, hp, hbad⟩
    rcases hspec with ⟨_, hall⟩ | ⟨m, hm, hcsm, _⟩
    · exact absurd hbad (hall p hp)
    · exact ⟨m, hm, hcsm⟩
  · intro hde ⟨p, hp, hbad⟩
    rcases hspec with ⟨_, hall⟩ | ⟨m, hm, _, _⟩
    · exact absurd hbad (hall p hp)
    · rcases hcp : checkPaths toastfile with e | u
      · rw [parse, hde, except_bind_ok, hcp, except_bind_error]
        rfl
      · cases u
        rw [parse, hde, except_bind_ok, hcp, except_bind_ok,
          checkCaching, hm, except_bind_error]
        rfl

/-- C6 witness: a concrete manifest with a caching violation. -/
theorem c6_check_caching_witness :
    (deserializeToastfile (Yaml.map [("image", .str "img"),
        ("tasks", .map [("foo", .map [("ports", .seq [.str "3000:80"])])])])
      = .ok { image := "img", default := none,
              tasks := [("foo", { ports := ["3000:80"] })] })
    ∧ (∃ p ∈ [(("foo" : String), ({ ports := ["3000:80"] } : Task))],
        CachingBad p.2)
    ∧ (parse (Yaml.map [("image", .str "img"),
        ("tasks", .map [("foo", .map [("ports", .seq [.str "3000:80"])])])])).isOk
      = false := by
  have hbad : ∃ p ∈ [(("foo" : String), ({ ports := ["3000:80"] } : Task))],
      CachingBad p.2 :=
    ⟨_, List.mem_cons_self _ _, Or.inl (by simp), rfl⟩
  exact ⟨rfl, hbad, (c6_check_caching _ _).2.2 rfl hbad⟩

/-! ## Lemmas about `environment` -/

theorem envLoop_violations (hostEnv : String → Option String) :
    ∀ l : List (String × Option String),
      (envLoop hostEnv l).1 =
        (l.filter (fun p => p.2.isNone && (hostEnv p.1).isNone)).map Prod.fst := by
  intro l
  induction l with
  | nil => rfl
  | cons q rest ih =>
    obtain ⟨arg, dflt⟩ := q
    cases dflt with
    | some d => simp [envLoop, List.filter_cons, ih]
    | none =>
      cases hv : hostEnv arg with
      | some v => simp [envLoop, hv, List.filter_cons, ih]
      | none => simp [envLoop, hv, List.filter_cons, ih]

theorem envLoop_result (hostEnv : String → Option String) :
    ∀ (l : List (String × Option String)) (p : String × Option String),
      p ∈ l → ((hostEnv p.1).isSome = true ∨ p.2.isSome = true) →
      ∃ v, (p.1, v) ∈ (envLoop hostEnv l).2 ∧
        (hostEnv p.1 = some v ∨ (hostEnv p.1 = none ∧ p.2 = some v)) := by
  intro l
  induction l with
  | nil => intro p hp; cases hp
  | cons q rest ih =>
    intro p hp hres
    have hmemRes : ∀ v, (p.1, v) ∈ (envLoop hostEnv rest).2 →
        (p.1, v) ∈ (envLoop hostEnv (q :: rest)).2 := by
      intro v hv
      obtain ⟨arg, dflt⟩ := q
      cases dflt with
      | some d => exact List.mem_cons_of_mem _ hv
      | none =>
        rcases hhv : hostEnv arg with _ | w
        · simp only [envLoop, hhv]
          exact hv
        · simp only [envLoop, hhv]
          exact List.mem_cons_of_mem _ hv
    rcases List.mem_cons.mp hp with hq | hq
    · subst hq
      obtain ⟨arg, dflt⟩ := p
      cases dflt with
      | some d =>
        rcases hhv : hostEnv arg with _ | w
        · refine ⟨d, ?_, Or.inr ⟨rfl, rfl⟩⟩
          simp only [envLoop, hhv, Option.getD_none]
          exact List.mem_cons_self _ _
        · refine ⟨w, ?_, Or.inl rfl⟩
          simp only [envLoop, hhv, Option.getD_some]
          exact List.mem_cons_self _ _
      | none =>
        rcases hres with hsome | hsome
        · obtain ⟨w, hw⟩ := Option.isSome_iff_exists.mp hsome
          refine ⟨w, ?_, Or.inl hw⟩
          simp only [envLoop, hw]
          exact List.mem_cons_self _ _
        · simp at hsome
    · obtain ⟨v, hv, hcase⟩ := ih p hq hres
      exact ⟨v, hmemRes v hv, hcase⟩

/-- C7: `environment` succeeds exactly when every entry with a null default
is defined by the host; on success each entry resolves to the host value
when defined and the declared default otherwise; on failure the returned
list contains exactly the names of the null-default entries the host does
not define, in iteration order. -/
theorem c7_environment (hostEnv : String → Option String) (task : Task) :
    ((environment hostEnv task).isOk = true ↔
      ∀ p ∈ task.environment, p.2 = none → (hostEnv p.1).isSome = true)
    ∧ (∀ res, environment hostEnv task = .ok res →
        ∀ p ∈ task.environment, ∃ v, (p.1, v) ∈ res ∧
          (hostEnv p.1 = some v ∨ (hostEnv p.1 = none ∧ p.2 = some v)))
    ∧ (∀ vs, environment hostEnv task = .error vs →
        vs = (task.environment.filter
          (fun p => p.2.isNone && (hostEnv p.1).isNone)).map Prod.fst) := by
  have hviol := envLoop_violations hostEnv task.environment
  have hempty : (envLoop hostEnv task.environment).1.isEmpty = true ↔
      ∀ p ∈ task.environment, p.2 = none → (hostEnv p.1).isSome = true := by
    rw [List.isEmpty_iff, hviol, List.map_eq_nil_iff, List.filter_eq_nil_iff]
    constructor
    · intro h p hp hnone
      have hb := h p hp
      rw [hnone] at hb
      simp only [Option.isNone_none, Bool.true_and, Bool.not_eq_true] at hb
      have hne : hostEnv p.1 ≠ none := by
        intro hx
        rw [hx] at hb
        simp at hb
      exact Option.isSome_iff_ne_none.mpr hne
    · intro h p hp
      cases hd : p.2 with
      | some d => simp [hd]
      | none =>
        have hs := h p hp hd
        rw [Option.isSome_iff_ne_none] at hs
        simp only [hd, Option.isNone_none, Bool.true_and, Bool.not_eq_true]
        rcases hx : hostEnv p.1 with _ | v
        · exact absurd hx hs
        · rfl
  refine ⟨?_, ?_, ?_⟩
  · rw [← hempty]
    simp only [environment]
    cases he : (envLoop hostEnv task.environment).1.isEmpty with
    | true => simp [Except.isOk, Except.toBool]
    | false => simp [Except.isOk, Except.toBool]
  · intro res hres p hp
    simp only [environment] at hres
    split at hres
    case isTrue he =>
      injection hres with hres
      have hcond : (hostEnv p.1).isSome = true ∨ p.2.isSome = true := by
        cases hd : p.2 with
        | some d => exact Or.inr rfl
        | none => exact Or.inl (hempty.mp he p hp hd)
      obtain ⟨v, hv, hcase⟩ := envLoop_result hostEnv task.environment p hp hcond
      exact ⟨v, hres ▸ hv, hcase⟩
    case isFalse he => simp at hres
  · intro vs hvs
    simp only [environment] at hvs
    split at hvs
    case isTrue he => simp at hvs
    case isFalse he =>
      injection hvs with h
      rw [← h, hviol]

/-- C7 witness: a task whose environment has one resolvable entry with a
default, one overridden entry, and (separately) a missing entry. -/
theorem c7_environment_witness :
    ((environment (fun n => if n = "HOST" then some "hv" else none)
        { environment := [("HOST", none), ("DEF", some "dv")] }).isOk = true
      ↔ ∀ p ∈ [(("HOST" : String), (none : Option String)),
          ("DEF", some "dv")], p.2 = none →
          ((fun n => if n = "HOST" then some "hv" else none) p.1).isSome = true)
    ∧ (environment (fun n => if n = "HOST" then some "hv" else none)
        { environment := [("HOST", none), ("DEF", some "dv")] }
        = .ok [("HOST", "hv"), ("DEF", "dv")])
    ∧ (environment (fun _ => none)
        { environment := [(("MISS" : String), (none : Option String))] }
        = .error ["MISS"]) := by
  exact ⟨(c7_environment _ _).1, rfl, rfl⟩

/-! ## Claims about the subprocess wrappers -/

/-- C8 counterexample: in `run_loud_stdin` (one of the four execution
modes) a non-zero, code-bearing exit with no flag flip is a `System`
failure whose message does not embed the child's stderr, contradicting the
claim that the stderr-embedding classification is common to all four
modes. -/
theorem c8_counterexample :
    runLoudStdin "Unable to start container." (.ok ())
      ⟨false, some 1, "", "boom"⟩ false false
      = (.error (.system "Unable to start container." none), false)
    ∧ ¬ StrContains "Unable to start container." "boom" :=
  ⟨rfl, not_strContains_of_infixB (by decide)⟩

/-- C8 (amended): for every completed child with non-zero exit, all four
wrappers classify the result as `Interrupted` exactly when the child had no
numeric exit code or the interruption flag flipped from unset to set during
execution, storing the flag as set; every other non-zero exit is a `System`
failure, whose message embeds the captured stderr in the two
output-capturing (quiet) modes and is the bare error message in the loud
and attached modes. -/
theorem c8_classification (e : String) (out : ChildOutcome) (w n : Bool)
    (hsf : out.success = false) :
    (runQuiet e out w n =
      if out.code.isNone || (!w && n) then (.error .interrupted, true)
      else (.error (.system (e ++ " Details:\n" ++ out.stderr) none), n))
    ∧ (runQuietStdin e (.ok ()) out w n =
      if out.code.isNone || (!w && n) then (.error .interrupted, true)
      else (.error (.system (e ++ " Details:\n" ++ out.stderr) none), n))
    ∧ (runLoudStdin e (.ok ()) out w n =
      if out.code.isNone || (!w && n) then (.error .interrupted, true)
      else (.error (.system e none), n))
    ∧ (runAttach e out w n =
      if out.code.isNone || (!w && n) then (.error .interrupted, true)
      else (.error (.system e none), n))
    ∧ StrContains (e ++ " Details:\n" ++ out.stderr) out.stderr := by
  refine ⟨?_, ?_, ?_, ?_, ?_⟩
  · rw [runQuiet, hsf]
    simp only [Bool.false_eq_true, if_false]
  · rw [runQuietStdin, hsf]
    simp only [Bool.false_eq_true, if_false]
  · rw [runLoudStdin]
    rw [hsf]
    simp only [Bool.false_eq_true, if_false]
  · rw [runAttach, hsf]
    simp only [Bool.false_eq_true, if_false]
  · refine @strContains_of_parts _ (e ++ " Details:\n") _ "" ?_
    rw [String.append_empty]

/-- C8 witness: the amended classification at a concrete failing child. -/
theorem c8_classification_witness :
    ((⟨false, some 1, "", "boom"⟩ : ChildOutcome).success = false)
    ∧ (runQuiet "E" ⟨false, some 1, "", "boom"⟩ false false =
        (.error (.system ("E" ++ " Details:\n" ++ "boom") none), false)) := by
  have h := (c8_classification "E" ⟨false, some 1, "", "boom"⟩ false false rfl).1
  refine ⟨rfl, ?_⟩
  rw [h]
  rfl

/-- C9 counterexample: the interruption flag is set before the wrapper is
invoked (`wasInterrupted = true`, and it stays set), yet `run_quiet` still
consumes the completed child's outcome and returns its captured stdout —
the child was spawned and the operation did not result in `Interrupted`. -/
theorem c9_counterexample :
    runQuiet "e" ⟨true, some 0, "out", ""⟩ true true = (.ok "out", true)
    ∧ ((.ok "out" : Except Failure String) ≠ .error .interrupted) :=
  ⟨rfl, fun h => Except.noConfusion h⟩

/-- C9 (amended): the wrappers read the interruption flag before spawning
only to detect a flip; they spawn the child regardless.  When the flag is
already set at invocation the child still runs to completion: a successful
child yields `Ok`, and a failing child with a numeric exit code is a
`System` failure — `Interrupted` arises only from a signal exit. -/
theorem c9_flag_preset (e : String) (out : ChildOutcome) :
    ((runQuiet e out true true).1 =
      if out.success then .ok out.stdout
      else if out.code.isNone then .error .interrupted
      else .error (.system (e ++ " Details:\n" ++ out.stderr) none))
    ∧ ((runLoudStdin e (.ok ()) out true true).1 =
      if out.success then .ok ()
      else if out.code.isNone then .error .interrupted
      else .error (.system e none))
    ∧ ((runAttach e out true true).1 =
      if out.success then .ok ()
      else if out.code.isNone then .error .interrupted
      else .error (.system e none)) := by
  refine ⟨?_, ?_, ?_⟩
  · rw [runQuiet]
    cases hs : out.success
    · simp only [Bool.false_eq_true, if_false]
      cases hc : out.code.isNone
      · simp
      · simp
    · simp
  · rw [runLoudStdin]
    cases hs : out.success
    · simp only [Bool.false_eq_true, if_false]
      cases hc : out.code.isNone
      · simp
      · simp
    · simp
  · rw [runAttach]
    cases hs : out.success
    · simp only [Bool.false_eq_true, if_false]
      cases hc : out.code.isNone
      · simp
      · simp
    · simp

/-! ## Claims about `check_paths` (C3, C4) -/

theorem strContains_trans {a b c : String} (h1 : StrContains a b)
    (h2 : StrContains b c) : StrContains a c := by
  obtain ⟨x, y, hxy⟩ := h1
  obtain ⟨u, v, huv⟩ := h2
  exact ⟨x ++ u, v ++ y, by rw [hxy, huv]; simp⟩

theorem pathViolationMsg_input (n p : String) :
    pathViolationMsg n "input_path" p =
      "Task " ++ cs n ++ " has an absolute " ++ cs "input_path"
        ++ ": " ++ cs p ++ "." := rfl

theorem pathViolationMsg_output (n p : String) :
    pathViolationMsg n "ouput_path" p =
      "Task " ++ cs n ++ " has an absolute " ++ cs "ouput_path"
        ++ ": " ++ cs p ++ "." := rfl

theorem pathViolationMsg_location (n p : String) :
    pathViolationMsg n "location" p =
      "Task " ++ cs n ++ " has a relative " ++ cs "location"
        ++ ": " ++ cs p ++ "." := rfl

/-- The message of a path violation names the task, the field label and the
path. -/
theorem pathViolationMsg_contains (n f p : String)
    (hf : f = "input_path" ∨ f = "ouput_path" ∨ f = "location") :
    StrContains (pathViolationMsg n f p) (cs n)
    ∧ StrContains (pathViolationMsg n f p) (cs f)
    ∧ StrContains (pathViolationMsg n f p) (cs p) := by
  have habs : ∀ (mid : String),
      StrContains ("Task " ++ cs n ++ mid ++ cs f ++ ": " ++ cs p ++ ".") (cs n)
      ∧ StrContains ("Task " ++ cs n ++ mid ++ cs f ++ ": " ++ cs p ++ ".") (cs f)
      ∧ StrContains ("Task " ++ cs n ++ mid ++ cs f ++ ": " ++ cs p ++ ".") (cs p) := by
    intro mid
    refine ⟨?_, ?_, ?_⟩
    · exact strContains_append_right _ (strContains_append_right _
        (strContains_append_right _ (strContains_append_right _
          (strContains_append_right _
            (strContains_append_left _ (strContains_refl _))))))
    · exact strContains_append_right _ (strContains_append_right _
        (strContains_append_right _
          (strContains_append_left _ (strContains_refl _))))
    · exact strContains_append_right _
        (strContains_append_left _ (strContains_refl _))
  rcases hf with hf | hf | hf <;> subst hf
  · rw [pathViolationMsg_input]
    exact habs " has an absolute "
  · rw [pathViolationMsg_output]
    exact habs " has an absolute "
  · rw [pathViolationMsg_location]
    exact habs " has a relative "

/-- `check_paths` computes exactly the first path-kind violation. -/
theorem checkPathsTasks_eq_first (ts : List (String × Task)) :
    checkPathsTasks ts = (match firstPathViolation ts with
      | none => .ok ()
      | some (n, f, p) => .error (pathViolationMsg n f p)) := by
  induction ts with
  | nil => rfl
  | cons q rest ih =>
    obtain ⟨name, task⟩ := q
    cases hin : task.input_paths.find? (fun p => isAbsolute p) with
    | some p =>
      simp only [checkPathsTasks, firstPathViolation, hin]
      rw [pathViolationMsg_input]
    | none =>
      cases hout : task.output_paths.find? (fun p => isAbsolute p) with
      | some p =>
        simp only [checkPathsTasks, firstPathViolation, hin, hout]
        rw [pathViolationMsg_output]
      | none =>
        cases hloc : isAbsolute task.location with
        | false =>
          simp only [checkPathsTasks, firstPathViolation, hin, hout, hloc,
            Bool.not_false, if_true]
          rw [pathViolationMsg_location]
        | true =>
          simp only [checkPathsTasks, firstPathViolation, hin, hout, hloc,
            Bool.not_true, Bool.false_eq_true, if_false]
          exact ih

/-- The first violation is a genuine violation. -/
theorem firstPathViolation_sound :
    ∀ (ts : List (String × Task)) (n f p : String),
      firstPathViolation ts = some (n, f, p) → PathViolationL ts n f p := by
  intro ts
  induction ts with
  | nil => intro n f p h; cases h
  | cons q rest ih =>
    intro n f p h
    obtain ⟨name, task⟩ := q
    cases hin : task.input_paths.find? (fun x => isAbsolute x) with
    | some x =>
      simp only [firstPathViolation, hin, Option.some.injEq,
        Prod.mk.injEq] at h
      obtain ⟨hn, hf, hp⟩ := h
      subst hn; subst hf; subst hp
      refine ⟨task, List.mem_cons_self _ _,
        Or.inl ⟨rfl, List.mem_of_find?_eq_some hin, ?_⟩⟩
      simpa using List.find?_some hin
    | none =>
      cases hout : task.output_paths.find? (fun x => isAbsolute x) with
      | some x =>
        simp only [firstPathViolation, hin, hout, Option.some.injEq,
          Prod.mk.injEq] at h
        obtain ⟨hn, hf, hp⟩ := h
        subst hn; subst hf; subst hp
        refine ⟨task, List.mem_cons_self _ _,
          Or.inr (Or.inl ⟨rfl, List.mem_of_find?_eq_some hout, ?_⟩)⟩
        simpa using List.find?_some hout
      | none =>
        cases hloc : isAbsolute task.location with
        | false =>
          simp only [firstPathViolation, hin, hout, hloc, Bool.not_false,
            if_true, Option.some.injEq, Prod.mk.injEq] at h
          obtain ⟨hn, hf, hp⟩ := h
          subst hn; subst hf; subst hp
          exact ⟨task, List.mem_cons_self _ _,
            Or.inr (Or.inr ⟨rfl, rfl, hloc⟩)⟩
        | true =>
          simp only [firstPathViolation, hin, hout, hloc, Bool.not_true,
            Bool.false_eq_true, if_false] at h
          obtain ⟨t, hmem, hc⟩ := ih n f p h
          exact ⟨t, List.mem_cons_of_mem _ hmem, hc⟩

/-- If there is no first violation, there is no violation at all. -/
theorem firstPathViolation_complete :
    ∀ (ts : List (String × Task)), firstPathViolation ts = none →
      ∀ n f p, ¬ PathViolationL ts n f p := by
  intro ts
  induction ts with
  | nil => intro _ n f p ⟨t, hmem, _⟩; cases hmem
  | cons q rest ih =>
    intro h n f p ⟨t, hmem, hc⟩
    obtain ⟨name, task⟩ := q
    cases hin : task.input_paths.find? (fun x => isAbsolute x) with
    | some x =>
      simp only [firstPathViolation, hin] at h
      exact Option.noConfusion h
    | none =>
      cases hout : task.output_paths.find? (fun x => isAbsolute x) with
      | some x =>
        simp only [firstPathViolation, hin, hout] at h
        exact Option.noConfusion h
      | none =>
        cases hloc : isAbsolute task.location with
        | false =>
          simp only [firstPathViolation, hin, hout, hloc, Bool.not_false,
            if_true] at h
          exact Option.noConfusion h
        | true =>
          simp only [firstPathViolation, hin, hout, hloc, Bool.not_true,
            Bool.false_eq_true, if_false] at h
          rcases List.mem_cons.mp hmem with hq | hq
          · obtain ⟨hn, ht⟩ := Prod.mk.injEq .. ▸ hq
            subst ht
            rcases hc with ⟨_, hp, habs⟩ | ⟨_, hp, habs⟩ | ⟨_, hp, habs⟩
            · exact absurd (List.find?_eq_none.mp hin p hp) (by simp [habs])
            · exact absurd (List.find?_eq_none.mp hout p hp) (by simp [habs])
            · rw [hp] at habs
              rw [habs] at hloc
              cases hloc
          · exact ih h n f p ⟨t, hq, hc⟩

/-- C4 counterexample: a manifest with two absolute input paths; the single
error of `check_paths` mentions the first and not the second, so path
violations are not accumulated. -/
theorem c4_counterexample :
    PathViolationL [("t", { input_paths := ["/a", "/b"], location := "/l" })]
      "t" "input_path" "/a"
    ∧ PathViolationL [("t", { input_paths := ["/a", "/b"], location := "/l" })]
      "t" "input_path" "/b"
    ∧ checkPathsTasks [("t", { input_paths := ["/a", "/b"], location := "/l" })]
      = .error ("Task " ++ cs "t" ++ " has an absolute " ++ cs "input_path"
          ++ ": " ++ cs "/a" ++ ".")
    ∧ ¬ StrContains ("Task " ++ cs "t" ++ " has an absolute "
        ++ cs "input_path" ++ ": " ++ cs "/a" ++ ".") "/b" := by
  refine ⟨?_, ?_, by decide, not_strContains_of_infixB (by decide)⟩
  · exact ⟨_, List.mem_cons_self _ _,
      Or.inl ⟨rfl, List.mem_cons_self _ _, by decide⟩⟩
  · exact ⟨_, List.mem_cons_self _ _,
      Or.inl ⟨rfl, List.mem_cons_of_mem _ (List.mem_cons_self _ _), by decide⟩⟩

/-- C4 (amended): `check_paths` does not accumulate path violations — it
returns the single message describing the first violation in iteration
order (task, field label, path), and succeeds exactly when no violation
exists. -/
theorem c4_first_violation (ts : List (String × Task)) :
    (firstPathViolation ts = none →
      (checkPathsTasks ts = .ok () ∧ ∀ n f p, ¬ PathViolationL ts n f p))
    ∧ (∀ n f p, firstPathViolation ts = some (n, f, p) →
        checkPathsTasks ts = .error (pathViolationMsg n f p)
        ∧ PathViolationL ts n f p) := by
  constructor
  · intro h
    refine ⟨?_, firstPathViolation_complete ts h⟩
    rw [checkPathsTasks_eq_first, h]
  · intro n f p h
    refine ⟨?_, firstPathViolation_sound ts n f p h⟩
    rw [checkPathsTasks_eq_first, h]

/-- C4 witness: the amended statement evaluated on the two-violation
manifest: only the first violation is reported. -/
theorem c4_first_violation_witness :
    firstPathViolation [(("t" : String),
        ({ input_paths := ["/a", "/b"], location := "/l" } : Task))]
      = some ("t", "input_path", "/a")
    ∧ checkPathsTasks [(("t" : String),
        ({ input_paths := ["/a", "/b"], location := "/l" } : Task))]
      = .error (pathViolationMsg "t" "input_path" "/a") := by
  refine ⟨by decide, ?_⟩
  exact ((c4_first_violation _).2 "t" "input_path" "/a" (by decide)).1

/-! ## Claims about `parse` rejections (C3) -/

theorem parse_deser_error {y : Yaml} {e : String}
    (h : deserializeToastfile y = .error e) : parse y = .error e := by
  rw [parse, h, except_bind_error]

theorem parse_checkPaths_error {y : Yaml} {toastfile : Toastfile} {m : String}
    (hde : deserializeToastfile y = .ok toastfile)
    (hcp : checkPaths toastfile = .error m) : parse y = .error m := by
  rw [parse, hde, except_bind_ok, hcp, except_bind_error]

theorem mapM_error_of_mem {α β : Type} (f : α → Except String β) :
    ∀ (l : List α) (x : α), x ∈ l → (∃ e, f x = .error e) →
      ∃ e, l.mapM f = .error e := by
  intro l
  induction l with
  | nil => intro x hx; cases hx
  | cons a rest ih =>
    intro x hx ⟨e, he⟩
    rw [List.mapM_cons]
    cases hfa : f a with
    | error ea => exact ⟨ea, rfl⟩
    | ok b =>
      rcases List.mem_cons.mp hx with hax | hax
      · subst hax
        rw [hfa] at he
        cases he
      · obtain ⟨e2, he2⟩ := ih x hax ⟨e, he⟩
        refine ⟨e2, ?_⟩
        rw [except_bind_ok, he2, except_bind_error]

theorem deserializeTask_unknown {tes : List (String × Yaml)}
    (h : ∃ r ∈ tes, r.1 ∉ taskKeys) :
    deserializeTask (.map tes) = .error "unknown field" := by
  obtain ⟨r, hr, hk⟩ := h
  have hall : tes.all (fun e => taskKeys.contains e.1) = false := by
    rw [List.all_eq_false]
    refine ⟨r, hr, ?_⟩
    intro hc
    exact hk (List.elem_iff.mp hc)
  simp only [deserializeTask, hall, Bool.false_eq_true, if_false]

theorem deserializeToastfile_unknown_top {es : List (String × Yaml)}
    (h : ∃ q ∈ es, q.1 ∉ toastfileKeys) :
    deserializeToastfile (.map es) = .error "unknown field" := by
  obtain ⟨q, hq, hk⟩ := h
  have hall : es.all (fun e => toastfileKeys.contains e.1) = false := by
    rw [List.all_eq_false]
    refine ⟨q, hq, ?_⟩
    intro hc
    exact hk (List.elem_iff.mp hc)
  simp only [deserializeToastfile, hall, Bool.false_eq_true, if_false]

theorem deserializeToastfile_unknown_task {es ts : List (String × Yaml)}
    (hts : getField es "tasks" = some (.map ts))
    (h : ∃ q ∈ ts, ∃ tes, q.2 = .map tes ∧ ∃ r ∈ tes, r.1 ∉ taskKeys) :
    ∃ e, deserializeToastfile (.map es) = .error e := by
  by_cases hall : es.all (fun e => toastfileKeys.contains e.1) = true
  · obtain ⟨q, hq, tes, htes, hr⟩ := h
    have hqerr : deserializeTask q.2 = .error "unknown field" := by
      rw [htes]
      exact deserializeTask_unknown hr
    have hmap : ∃ e, ts.mapM
        (fun e => (deserializeTask e.2).map ((e.1, ·))) = .error e := by
      refine mapM_error_of_mem _ ts q hq ⟨"unknown field", ?_⟩
      rw [hqerr]
      rfl
    obtain ⟨e, he⟩ := hmap
    simp only [deserializeToastfile, hall, if_true]
    cases himg : getField es "image" with
    | none =>
      refine ⟨"missing field image", ?_⟩
      simp only [himg]
      rfl
    | some v =>
      simp only [himg]
      cases hs : asString v with
      | error e2 =>
        refine ⟨e2, ?_⟩
        rw [except_bind_error]
      | ok img =>
        rw [except_bind_ok]
        cases hdf : optField es "default" asOptString none with
        | error e3 =>
          refine ⟨e3, ?_⟩
          rw [except_bind_error]
        | ok d =>
          rw [except_bind_ok]
          simp only [hts]
          refine ⟨e, ?_⟩
          rw [he, except_bind_error]
  · rw [Bool.not_eq_true] at hall
    refine ⟨"unknown field", ?_⟩
    simp only [deserializeToastfile, hall, Bool.false_eq_true, if_false]

/-- C3: `parse` rejects every manifest with unknown keys (at the top level
or inside a task), and rejects every manifest with an absolute input or
output path or relative location, identifying the task, the field label
(the source misspells the output label as "ouput_path") and the path. -/
theorem c3_parse_rejections (y : Yaml) (toastfile : Toastfile) :
    (HasUnknownKey y → (parse y).isOk = false)
    ∧ (deserializeToastfile y = .ok toastfile →
        (∃ n f p, PathViolationL toastfile.tasks n f p) →
        ∃ n f p m, parse y = .error m
          ∧ PathViolationL toastfile.tasks n f p
          ∧ StrContains m (cs n) ∧ StrContains m (cs f)
          ∧ StrContains m (cs p)) := by
  constructor
  · intro h
    cases y with
    | str v => cases h
    | bool v => cases h
    | null => cases h
    | seq items => cases h
    | map es =>
      rcases h with htop | ⟨ts, hts, hbad⟩
      · rw [parse_deser_error (deserializeToastfile_unknown_top htop)]
        rfl
      · obtain ⟨e, he⟩ := deserializeToastfile_unknown_task hts hbad
        rw [parse_deser_error he]
        rfl
  · intro hde hviol
    cases hfv : firstPathViolation toastfile.tasks with
    | none =>
      obtain ⟨n, f, p, hv⟩ := hviol
      exact absurd hv (firstPathViolation_complete _ hfv n f p)
    | some nfp =>
      obtain ⟨n, f, p⟩ := nfp
      have hcp : checkPathsTasks toastfile.tasks
          = .error (pathViolationMsg n f p) := by
        rw [checkPathsTasks_eq_first, hfv]
      have hpv := firstPathViolation_sound toastfile.tasks n f p hfv
      have hf : f = "input_path" ∨ f = "ouput_path" ∨ f = "location" := by
        obtain ⟨t, _, hc⟩ := hpv
        rcases hc with ⟨hf, _⟩ | ⟨hf, _⟩ | ⟨hf, _⟩
        · exact Or.inl hf
        · exact Or.inr (Or.inl hf)
        · exact Or.inr (Or.inr hf)
      obtain ⟨h1, h2, h3⟩ := pathViolationMsg_contains n f p hf
      exact ⟨n, f, p, pathViolationMsg n f p,
        parse_checkPaths_error hde hcp, hpv, h1, h2, h3⟩

/-- C3 witness: a top-level unknown key is rejected, and a concrete
absolute input path is rejected with a message naming task, field and
path. -/
theorem c3_parse_rejections_witness :
    ((parse (Yaml.map [("imagee", .str "x")])).isOk = false)
    ∧ (deserializeToastfile (Yaml.map [("image", .str "i"),
        ("tasks", .map [("t", .map [("input_paths", .seq [.str "/a"])])])])
        = .ok { image := "i", default := none,
                tasks := [("t", { input_paths := ["/a"] })] })
    ∧ (∃ n f p m,
        parse (Yaml.map [("image", .str "i"),
          ("tasks", .map [("t", .map [("input_paths", .seq [.str "/a"])])])])
          = .error m
        ∧ PathViolationL [("t", { input_paths := ["/a"] })] n f p
        ∧ StrContains m (cs n) ∧ StrContains m (cs f)
        ∧ StrContains m (cs p)) := by
  refine ⟨?_, by decide, ?_⟩
  · refine (c3_parse_rejections (Yaml.map [("imagee", .str "x")])
      ⟨"", none, []⟩).1 ?_
    exact Or.inl ⟨("imagee", .str "x"), List.mem_cons_self _ _, by decide⟩
  · refine (c3_parse_rejections
      (Yaml.map [("image", .str "i"),
        ("tasks", .map [("t", .map [("input_paths", .seq [.str "/a"])])])])
      { image := "i", default := none,
        tasks := [("t", { input_paths := ["/a"] })] }).2 (by decide)
      ⟨"t", "input_path", "/a", ?_⟩
    exact ⟨_, List.mem_cons_self _ _,
      Or.inl ⟨rfl, List.mem_cons_self _ _, by decide⟩⟩

/-! ## Claim about missing dependencies (C5) -/

theorem mem_violationsOf {tasks : List (String × Task)} {p : String × Task}
    (hp : p ∈ tasks) {d : String} (hd : d ∈ p.2.dependencies)
    (hk : isKeyB tasks d = false) :
    (p.1, p.2.dependencies.filter (fun x => !(isKeyB tasks x)))
      ∈ violationsOf tasks
    ∧ d ∈ p.2.dependencies.filter (fun x => !(isKeyB tasks x)) := by
  have hdm : d ∈ p.2.dependencies.filter (fun x => !(isKeyB tasks x)) :=
    List.mem_filter.mpr ⟨hd, by rw [hk]; rfl⟩
  refine ⟨?_, hdm⟩
  apply List.mem_filterMap.mpr
  refine ⟨p, hp, ?_⟩
  have hne : (p.2.dependencies.filter (fun x => !(isKeyB tasks x))).isEmpty
      = false := isEmpty_false_of_ne_nil (List.ne_nil_of_mem hdm)
  simp only [hne, Bool.false_eq_true, if_false]

theorem violationsSeries_contains {violations : List (String × List String)}
    {q : String × List String} (hq : q ∈ violations) :
    StrContains (violationsSeries violations) (cs q.1)
    ∧ ∀ d ∈ q.2, StrContains (violationsSeries violations) (cs d) := by
  have hmemElem : (cs q.1 ++ " (" ++ series (q.2.map (fun d => cs d)) ++ ")")
      ∈ violations.map
        (fun r => cs r.1 ++ " (" ++ series (r.2.map (fun d => cs d)) ++ ")") :=
    List.mem_map_of_mem _ hq
  have hbig : StrContains (violationsSeries violations)
      (cs q.1 ++ " (" ++ series (q.2.map (fun d => cs d)) ++ ")") :=
    mem_series_contains hmemElem
  constructor
  · refine strContains_trans hbig ?_
    exact strContains_append_right _ (strContains_append_right _
      (strContains_append_right _ (strContains_refl _)))
  · intro d hd
    refine strContains_trans hbig ?_
    refine strContains_append_right _ ?_
    refine strContains_append_left _ ?_
    exact mem_series_contains (List.mem_map_of_mem _ hd)

/-- C5: when a task names a missing dependency or the default names a
missing task, `check_dependencies` returns a single error enumerating, in
the series format, every offending task with all of its missing dependency
names, mentioning the invalid default in the same message when both kinds
of violation are present, and reporting the invalid default alone when no
dependency is missing. -/
theorem c5_missing_dependencies (toastfile : Toastfile) :
    ((∃ p ∈ toastfile.tasks, ∃ d ∈ p.2.dependencies,
        isKeyB toastfile.tasks d = false)
      ∨ (∃ dn, toastfile.default = some dn
          ∧ isKeyB toastfile.tasks dn = false)) →
    ∃ m, checkDependencies toastfile = .error m
      ∧ (∀ p ∈ toastfile.tasks, ∀ d ∈ p.2.dependencies,
          isKeyB toastfile.tasks d = false →
          StrContains m (cs p.1) ∧ StrContains m (cs d))
      ∧ (∀ dn, toastfile.default = some dn →
          isKeyB toastfile.tasks dn = false → StrContains m (cs dn))
      ∧ ((violationsOf toastfile.tasks).isEmpty = false →
          ((match toastfile.default with
            | none => true
            | some d => isKeyB toastfile.tasks d) = true →
            m = "The following tasks have invalid dependencies: "
              ++ violationsSeries (violationsOf toastfile.tasks) ++ ".")
          ∧ ((match toastfile.default with
            | none => true
            | some d => isKeyB toastfile.tasks d) = false →
            m = "The default task " ++ cs ((toastfile.default).getD "")
              ++ " does not exist, and the following tasks have invalid "
              ++ "dependencies: "
              ++ violationsSeries (violationsOf toastfile.tasks) ++ "."))
      ∧ ((violationsOf toastfile.tasks).isEmpty = true →
          m = "The default task " ++ cs ((toastfile.default).getD "")
            ++ " does not exist.") := by
  intro hante
  have hcontains : ∀ (m' : String),
      (∀ σ, StrContains (violationsSeries (violationsOf toastfile.tasks)) σ →
        StrContains m' σ) →
      ∀ p ∈ toastfile.tasks, ∀ d ∈ p.2.dependencies,
        isKeyB toastfile.tasks d = false →
        StrContains m' (cs p.1) ∧ StrContains m' (cs d) := by
    intro m' hlift p hp d hd hk
    obtain ⟨hmem, hdm⟩ := mem_violationsOf hp hd hk
    obtain ⟨h1, h2⟩ := violationsSeries_contains hmem
    exact ⟨hlift _ h1, hlift _ (h2 d hdm)⟩
  cases hE : (violationsOf toastfile.tasks).isEmpty with
  | false =>
    cases hvd : (match toastfile.default with
        | none => true
        | some d => isKeyB toastfile.tasks d) with
    | true =>
      refine ⟨"The following tasks have invalid dependencies: "
        ++ violationsSeries (violationsOf toastfile.tasks) ++ ".", ?_, ?_,
        ?_, fun _ => ⟨fun _ => rfl, fun hf => Bool.noConfusion hf⟩,
        fun hf => Bool.noConfusion hf⟩
      · simp only [checkDependencies, hE, Bool.false_eq_true, if_false,
          hvd, if_true]
      · refine hcontains _ ?_
        intro σ hσ
        exact strContains_append_right _ (strContains_append_left _ hσ)
      · intro dn hdn hkdn
        simp only [hdn] at hvd
        rw [hkdn] at hvd
        cases hvd
    | false =>
      refine ⟨"The default task " ++ cs ((toastfile.default).getD "")
        ++ " does not exist, and the following tasks have invalid "
        ++ "dependencies: "
        ++ violationsSeries (violationsOf toastfile.tasks) ++ ".",
        ?_, ?_, ?_,
        fun _ => ⟨fun ht => Bool.noConfusion ht, fun _ => rfl⟩,
        fun hf => Bool.noConfusion hf⟩
      · simp only [checkDependencies, hE, Bool.false_eq_true, if_false,
          hvd]
      · refine hcontains _ ?_
        intro σ hσ
        exact strContains_append_right _ (strContains_append_left _ hσ)
      · intro dn hdn hkdn
        rw [hdn]
        simp only [Option.getD_some]
        exact strContains_append_right _ (strContains_append_right _
          (strContains_append_right _ (strContains_append_right _
            (strContains_append_left _ (strContains_refl _)))))
  | true =>
    rcases hante with ⟨p, hp, d, hd, hk⟩ | ⟨dn, hdn, hkdn⟩
    · exfalso
      have hne : (violationsOf toastfile.tasks).isEmpty = false :=
        isEmpty_false_of_ne_nil
          (List.ne_nil_of_mem (mem_violationsOf hp hd hk).1)
      rw [hE] at hne
      exact Bool.noConfusion hne
    · have hvd : (match toastfile.default with
          | none => true
          | some d => isKeyB toastfile.tasks d) = false := by
        rw [hdn]
        exact hkdn
      refine ⟨"The default task " ++ cs ((toastfile.default).getD "")
        ++ " does not exist.", ?_, ?_, ?_,
        fun hf => Bool.noConfusion hf, fun _ => rfl⟩
      · simp only [checkDependencies, hE, if_true, hvd, Bool.false_eq_true,
          if_false]
      · intro p hp d hd hk
        exfalso
        have hne : (violationsOf toastfile.tasks).isEmpty = false :=
          isEmpty_false_of_ne_nil
            (List.ne_nil_of_mem (mem_violationsOf hp hd hk).1)
        rw [hE] at hne
        exact Bool.noConfusion hne
      · intro dn2 hdn2 hk2
        rw [hdn2]
        simp only [Option.getD_some]
        exact strContains_append_right _ (strContains_append_left _
          (strContains_refl _))

/-- C5 witness: a manifest where task `b` depends on the missing `z` and
the default names the missing `w` yields one message mentioning `b`, `z`
and `w`; a manifest whose only violation is the missing default `w` yields
the default-only message. -/
theorem c5_missing_dependencies_witness :
    (∃ m, checkDependencies { image := "i", default := some "w",
                              tasks := [("b", { dependencies := ["z"] })] }
          = .error m
        ∧ StrContains m (cs "b") ∧ StrContains m (cs "z")
        ∧ StrContains m (cs "w"))
    ∧ (∃ m, checkDependencies { image := "i", default := some "w",
                                tasks := [("b", ({} : Task))] }
          = .error m
        ∧ m = "The default task " ++ cs "w" ++ " does not exist.") := by
  constructor
  · obtain ⟨m, hm, hc, hdn, h4, h5⟩ :=
      c5_missing_dependencies { image := "i", default := some "w",
                                tasks := [("b", { dependencies := ["z"] })] }
        (Or.inl ⟨_, List.mem_cons_self _ _, "z", List.mem_cons_self _ _,
          by decide⟩)
    obtain ⟨h1, h2⟩ := hc _ (List.mem_cons_self _ _) "z"
      (List.mem_cons_self _ _) (by decide)
    exact ⟨m, hm, h1, h2, hdn "w" rfl (by decide)⟩
  · obtain ⟨m, hm, hc, hdn, h4, h5⟩ :=
      c5_missing_dependencies { image := "i", default := some "w",
                                tasks := [("b", ({} : Task))] }
        (Or.inr ⟨"w", rfl, by decide⟩)
    exact ⟨m, hm, h5 (by decide)⟩

/-! ## The cycle-detection traversal: flushing the ancestor stack -/

theorem le_foldr_max : ∀ {l : List Nat} {x : Nat}, x ∈ l →
    x ≤ l.foldr max 0 := by
  intro l
  induction l with
  | nil => intro x hx; cases hx
  | cons a as ih =>
    intro x hx
    rcases List.mem_cons.mp hx with h | h
    · subst h
      simp only [List.foldr_cons]
      exact le_max_left _ _
    · simp only [List.foldr_cons]
      exact le_trans (ih h) (le_max_right _ _)

theorem getElem?_some_lt {α : Type} {l : List α} {i : Nat} {a : α}
    (h : l[i]? = some a) : i < l.length := by
  rcases List.getElem?_eq_some.mp h with ⟨hlt, _⟩
  exact hlt

/-- Removing the top of the ancestor stack preserves the pending and rank
invariants, provided no pending obligation reaches the removed node. -/
theorem flush_one {tasks : List (String × Task)} {V : List String}
    {P : String → Nat → Prop} {S₀ : List String} {x : String}
    (hVS : ∀ y ∈ S₀ ++ [x], y ∈ V)
    (hnd : (S₀ ++ [x]).Nodup)
    (hp : Pending tasks P V (S₀ ++ [x]))
    (hrk : ∃ rank, RankOk tasks V (S₀ ++ [x]) rank)
    (hPe : ∀ u d, P u d → d ≤ S₀.length) :
    Pending tasks P V S₀ ∧ ∃ rank, RankOk tasks V S₀ rank := by
  have hnd' := List.nodup_append.mp hnd
  have hxS₀ : x ∉ S₀ := fun hm => hnd'.2.2 hm (List.mem_singleton_self x)
  have hxV : x ∈ V := hVS x (List.mem_append.mpr (Or.inr (List.mem_singleton_self x)))
  constructor
  · intro i u v hv hedge
    have hiS : i < S₀.length := getElem?_some_lt hv
    have hv' : (S₀ ++ [x])[i]? = some v := by
      rw [List.getElem?_append_left hiS]
      exact hv
    rcases hp i u v hv' hedge with h1 | ⟨h2a, h2b⟩ | ⟨j, hj, hjv⟩
    · exact Or.inl h1
    · exact Or.inr (Or.inl ⟨h2a,
        fun hm => h2b (List.mem_append.mpr (Or.inl hm))⟩)
    · by_cases hjlt : j < S₀.length
      · refine Or.inr (Or.inr ⟨j, hj, ?_⟩)
        rw [List.getElem?_append_left hjlt] at hjv
        exact hjv
      · by_cases hjeq : j = S₀.length
        · subst hjeq
          rw [List.getElem?_concat_length] at hjv
          have hux : u = x := by
            injection hjv with h
            exact h.symm
          subst hux
          exact Or.inr (Or.inl ⟨hxV, hxS₀⟩)
        · have hlen : (S₀ ++ [x]).length ≤ j := by
            rw [List.length_append]
            simp only [List.length_singleton]
            omega
          rw [List.getElem?_eq_none hlen] at hjv
          cases hjv
  · obtain ⟨rank, hrank⟩ := hrk
    refine ⟨fun u => if u = x then (V.map rank).foldr max 0 + 1 else rank u, ?_⟩
    intro v hvV hvS₀ u hedge
    by_cases hvx : v = x
    · subst hvx
      have hvx' : (S₀ ++ [v])[S₀.length]? = some v :=
        List.getElem?_concat_length _ _
      rcases hp S₀.length u v hvx' hedge with h1 | ⟨h2a, h2b⟩ | ⟨j, hj, hjv⟩
      · exact absurd (hPe u _ h1) (by omega)
      · have hux : u ≠ v := by
          intro h
          refine h2b ?_
          rw [h]
          exact List.mem_append.mpr (Or.inr (List.mem_singleton_self v))
        refine ⟨h2a, fun hm => h2b (List.mem_append.mpr (Or.inl hm)), ?_⟩
        simp only [if_neg hux, eq_self_iff_true, if_true]
        have hle : rank u ≤ (V.map rank).foldr max 0 :=
          le_foldr_max (List.mem_map_of_mem rank h2a)
        omega
      · have hlen : (S₀ ++ [v]).length ≤ j := by
          rw [List.length_append]
          simp only [List.length_singleton]
          omega
        rw [List.getElem?_eq_none hlen] at hjv
        cases hjv
    · have hvS : v ∉ S₀ ++ [x] := by
        intro hm
        rcases List.mem_append.mp hm with h | h
        · exact hvS₀ h
        · exact hvx (List.mem_singleton.mp h)
      obtain ⟨huV, huS, hlt⟩ := hrank v hvV hvS u hedge
      have hux : u ≠ x := by
        intro h
        refine huS ?_
        rw [h]
        exact List.mem_append.mpr (Or.inr (List.mem_singleton_self x))
      refine ⟨huV, fun hm => huS (List.mem_append.mpr (Or.inl hm)), ?_⟩
      simp only [if_neg hux, if_neg hvx]
      exact hlt

/-- Truncating the ancestor stack to length `e` preserves the pending and
rank invariants, provided every pending obligation has depth at most `e`. -/
theorem flush_to {tasks : List (String × Task)} {V : List String}
    {P : String → Nat → Prop} {e : Nat} :
    ∀ (k : Nat) (S : List String), S.length ≤ e + k →
    (∀ y ∈ S, y ∈ V) → S.Nodup → Pending tasks P V S →
    (∃ rank, RankOk tasks V S rank) →
    (∀ u d, P u d → d ≤ e) →
    Pending tasks P V (S.take e) ∧ ∃ rank, RankOk tasks V (S.take e) rank := by
  intro k
  induction k with
  | zero =>
    intro S hlen hVS hnd hp hrk hPe
    rw [List.take_of_length_le (by omega)]
    exact ⟨hp, hrk⟩
  | succ k ih =>
    intro S hlen hVS hnd hp hrk hPe
    by_cases hle : S.length ≤ e
    · rw [List.take_of_length_le hle]
      exact ⟨hp, hrk⟩
    · have hne : S ≠ [] := by
        intro h
        subst h
        simp at hle
      obtain ⟨S₀, x, hS⟩ : ∃ S₀ x, S = S₀ ++ [x] :=
        ⟨S.dropLast, S.getLast hne, (List.dropLast_append_getLast hne).symm⟩
      subst hS
      have hlenx : (S₀ ++ [x]).length = S₀.length + 1 := by
        rw [List.length_append, List.length_singleton]
      have hlen0 : e ≤ S₀.length := by omega
      obtain ⟨hp', hrk'⟩ := flush_one hVS hnd hp hrk
        (fun u d hd => le_trans (hPe u d hd) hlen0)
      have htake : (S₀ ++ [x]).take e = S₀.take e := by
        rw [List.take_append_of_le_length hlen0]
      rw [htake]
      exact ih S₀ (by omega)
        (fun y hy => hVS y (List.mem_append.mpr (Or.inl hy)))
        (List.nodup_append.mp hnd).1 hp' hrk' hPe

/-! ## Step preservation for the traversal invariant -/

theorem lookupTask_mem {tasks : List (String × Task)} {t : String} {tk : Task}
    (h : lookupTask tasks t = some tk) : (t, tk) ∈ tasks := by
  rw [lookupTask] at h
  cases hf : tasks.find? (fun p => p.1 == t) with
  | none => rw [hf] at h; cases h
  | some q =>
    rw [hf] at h
    simp only [Option.map_some', Option.some.injEq] at h
    have hq := List.mem_of_find?_eq_some hf
    have hqt : q.1 = t := by
      have := List.find?_some hf
      simpa using this
    rw [← h, ← hqt]
    exact hq

theorem lookupTask_isSome_of_mem_keys {tasks : List (String × Task)}
    {t : String} (h : t ∈ tasks.map Prod.fst) :
    ∃ tk, lookupTask tasks t = some tk := by
  obtain ⟨p, hp, hpt⟩ := List.mem_map.mp h
  have hsome : (tasks.find? (fun q => q.1 == t)).isSome = true :=
    List.find?_isSome.mpr ⟨p, hp, by simp [hpt]⟩
  obtain ⟨q, hq⟩ := Option.isSome_iff_exists.mp hsome
  exact ⟨q.2, by rw [lookupTask, hq]; rfl⟩

theorem depEdge_children {tasks : List (String × Task)} {t u : String}
    {tk : Task} (hlk : lookupTask tasks t = some tk)
    (h : depEdge tasks t u) : u ∈ tk.dependencies := by
  obtain ⟨tk2, hlk2, hu⟩ := h
  rw [hlk] at hlk2
  injection hlk2 with h2
  rw [h2]
  exact hu

theorem depEdge_mem_keys {tasks : List (String × Task)} {a b : String}
    (h : depEdge tasks a b) : a ∈ tasks.map Prod.fst := by
  obtain ⟨tk, hlk, _⟩ := h
  exact List.mem_map.mpr ⟨(a, tk), lookupTask_mem hlk, rfl⟩

theorem pairwise_map_const_depth (l : List String) (k : Nat) :
    (l.map (fun d => (d, k))).Pairwise
      (fun a b : String × Nat => b.2 ≤ a.2) := by
  induction l with
  | nil => exact List.Pairwise.nil
  | cons a as ih =>
    rw [List.map_cons, List.pairwise_cons]
    refine ⟨?_, ih⟩
    intro b hb
    obtain ⟨d, _, hd⟩ := List.mem_map.mp hb
    rw [← hd]

theorem mem_depsRev {deps : List String} {u : String} {k : Nat}
    (h : u ∈ deps) : (u, k) ∈ deps.reverse.map (fun d => (d, k)) :=
  List.mem_map.mpr ⟨u, List.mem_reverse.mpr h, rfl⟩

theorem mem_depsRev_inv {deps : List String} {u : String} {k k2 : Nat}
    (h : (u, k2) ∈ deps.reverse.map (fun d => (d, k))) :
    u ∈ deps ∧ k2 = k := by
  obtain ⟨d, hd, hdk⟩ := List.mem_map.mp h
  obtain ⟨h1, h2⟩ : d = u ∧ k = k2 := by
    constructor
    · exact congrArg Prod.fst hdk
    · exact congrArg Prod.snd hdk
  subst h1
  exact ⟨List.mem_reverse.mp hd, h2.symm⟩

/-- Truncation facts derived from the invariant at a pop. -/
theorem step_core {tasks : List (String × Task)} {t : String} {e : Nat}
    {F' : List (String × Nat)} {S V : List String}
    (hinv : CInv tasks ⟨(t, e) :: F', S, V⟩) :
    e ≤ S.length
    ∧ (S.take e).length = e
    ∧ (∀ p ∈ F', p.2 ≤ e)
    ∧ Pending tasks (fun u d => (u, d) ∈ (t, e) :: F') V (S.take e)
    ∧ (∃ rank, RankOk tasks V (S.take e) rank) := by
  have he : e ≤ S.length := hinv.depth_le (t, e) (List.mem_cons_self _ _)
  have hFe : ∀ p ∈ F', p.2 ≤ e := by
    intro p hp
    exact (List.pairwise_cons.mp hinv.mono).1 p hp
  have hPe : ∀ u d, (u, d) ∈ (t, e) :: F' → d ≤ e := by
    intro u d hd
    rcases List.mem_cons.mp hd with h | h
    · have : d = e := congrArg Prod.snd h
      omega
    · exact hFe (u, d) h
  obtain ⟨hp, hrk⟩ := flush_to S.length S (by omega) hinv.sub_visited
    hinv.snodup hinv.pending hinv.rank_ex hPe
  refine ⟨he, ?_, hFe, hp, hrk⟩
  rw [List.length_take]
  omega

/-- Invariant preservation when the popped task was already visited. -/
theorem step_skip {tasks : List (String × Task)} {t : String} {e : Nat}
    {F' : List (String × Nat)} {S V : List String}
    (hinv : CInv tasks ⟨(t, e) :: F', S, V⟩)
    (htS : t ∉ S.take e) (htV : t ∈ V) :
    CInv tasks ⟨F', S.take e, V⟩ := by
  obtain ⟨he, hlen, hFe, hp, hrk⟩ := step_core hinv
  refine ⟨?_, ?_, ?_, ?_, ?_, ?_, ?_, ?_⟩
  · intro x hx
    exact hinv.sub_visited x (List.take_subset e S hx)
  · exact (List.take_sublist e S).nodup hinv.snodup
  · exact (List.pairwise_cons.mp hinv.mono).2
  · intro p hp2
    rw [hlen]
    exact hFe p hp2
  · intro p hp2 hpos v hv
    rw [List.getElem?_take_of_lt (by have := hFe p hp2; omega)] at hv
    exact hinv.edge_inv p (List.mem_cons_of_mem _ hp2) hpos v hv
  · exact hinv.chain.take e
  · intro i u v hv hedge
    rcases hp i u v hv hedge with h1 | h2 | h3
    · rcases List.mem_cons.mp h1 with h | h
      · have hu : u = t := congrArg Prod.fst h
        have hi : i + 1 = e := congrArg Prod.snd h
        subst hu
        exact Or.inr (Or.inl ⟨htV, htS⟩)
      · exact Or.inl h
    · exact Or.inr (Or.inl h2)
    · exact Or.inr (Or.inr h3)
  · exact hrk

/-- Invariant preservation when the popped task is expanded. -/
theorem step_expand {tasks : List (String × Task)} {t : String} {e : Nat}
    {F' : List (String × Nat)} {S V : List String} {tk : Task}
    (hinv : CInv tasks ⟨(t, e) :: F', S, V⟩)
    (htS : t ∉ S.take e) (htV : t ∉ V)
    (hlk : lookupTask tasks t = some tk) :
    CInv tasks ⟨tk.dependencies.reverse.map (fun d => (d, e + 1)) ++ F',
      S.take e ++ [t], t :: V⟩ := by
  obtain ⟨he, hlen, hFe, hp, hrk⟩ := step_core hinv
  have hsubV : ∀ x ∈ S.take e, x ∈ V := fun x hx =>
    hinv.sub_visited x (List.take_subset e S hx)
  refine ⟨?_, ?_, ?_, ?_, ?_, ?_, ?_, ?_⟩
  · intro x hx
    rcases List.mem_append.mp hx with h | h
    · exact List.mem_cons_of_mem _ (hsubV x h)
    · rw [List.mem_singleton.mp h]
      exact List.mem_cons_self _ _
  · rw [List.nodup_append]
    refine ⟨(List.take_sublist e S).nodup hinv.snodup,
      List.nodup_singleton t, ?_⟩
    intro a ha hb
    rw [List.mem_singleton.mp hb] at ha
    exact htV (hsubV t ha)
  · rw [List.pairwise_append]
    refine ⟨pairwise_map_const_depth _ _,
      (List.pairwise_cons.mp hinv.mono).2, ?_⟩
    intro a ha b hb
    obtain ⟨_, hak⟩ := mem_depsRev_inv (by exact ha)
    have : b.2 ≤ e := hFe b hb
    omega
  · intro p hp2
    rw [List.length_append, hlen, List.length_singleton]
    rcases List.mem_append.mp hp2 with h | h
    · obtain ⟨_, hk⟩ := mem_depsRev_inv (by
        have : (p.1, p.2) ∈ tk.dependencies.reverse.map
          (fun d => (d, e + 1)) := by
          rw [Prod.mk.eta]
          exact h
        exact this)
      omega
    · have := hFe p h
      omega
  · intro p hp2 hpos v hv
    have hcat : (S.take e ++ [t])[e]? = some t := by
      have := List.getElem?_concat_length (S.take e) t
      rw [hlen] at this
      exact this
    rcases List.mem_append.mp hp2 with h | h
    · obtain ⟨hpd, hk⟩ := mem_depsRev_inv (by
        have hmk : (p.1, p.2) ∈ tk.dependencies.reverse.map
            (fun d => (d, e + 1)) := by
          rw [Prod.mk.eta]
          exact h
        exact hmk)
      rw [hk] at hv
      simp only [Nat.add_sub_cancel] at hv
      rw [hcat] at hv
      injection hv with hv
      rw [← hv]
      exact ⟨tk, hlk, hpd⟩
    · have hpe : p.2 ≤ e := hFe p h
      have hlt : p.2 - 1 < e := by omega
      rw [List.getElem?_append_left (by omega),
        List.getElem?_take_of_lt hlt] at hv
      exact hinv.edge_inv p (List.mem_cons_of_mem _ h) hpos v hv
  · rw [List.chain'_append]
    refine ⟨hinv.chain.take e,
      List.chain'_singleton t, ?_⟩
    intro x hx y hy
    have hyt : y = t := by
      simp only [List.head?_cons, Option.mem_def, Option.some.injEq] at hy
      exact hy.symm
    rw [hyt]
    have hxl : (S.take e).getLast? = some x := hx
    have hne : S.take e ≠ [] := by
      intro hnil
      rw [hnil] at hxl
      cases hxl
    have hepos : 0 < e := by
      rcases Nat.eq_zero_or_pos e with h0 | h0
      · rw [h0, List.take_zero] at hne
        exact absurd rfl hne
      · exact h0
    rw [List.getLast?_eq_getElem? , hlen] at hxl
    rw [List.getElem?_take_of_lt (by omega)] at hxl
    exact hinv.edge_inv (t, e) (List.mem_cons_self _ _) hepos x hxl
  · intro i u v hv hedge
    have hcat : (S.take e ++ [t])[e]? = some t := by
      have := List.getElem?_concat_length (S.take e) t
      rw [hlen] at this
      exact this
    have hlen2 : (S.take e ++ [t]).length = e + 1 := by
      rw [List.length_append, hlen, List.length_singleton]
    rcases Nat.lt_trichotomy i e with hie | hie | hie
    · rw [List.getElem?_append_left (by omega)] at hv
      rcases hp i u v hv hedge with h1 | ⟨h2a, h2b⟩ | ⟨j, hj, hjv⟩
      · rcases List.mem_cons.mp h1 with h | h
        · have hu : u = t := congrArg Prod.fst h
          have hi : i + 1 = e := congrArg Prod.snd h
          subst hu
          refine Or.inr (Or.inr ⟨e, by omega, ?_⟩)
          exact hcat
        · exact Or.inl (List.mem_append.mpr (Or.inr h))
      · refine Or.inr (Or.inl ⟨List.mem_cons_of_mem _ h2a, ?_⟩)
        intro hm
        rcases List.mem_append.mp hm with hm | hm
        · exact h2b hm
        · rw [List.mem_singleton.mp hm] at h2a
          exact htV h2a
      · have hjlt : j < e := by
          have := getElem?_some_lt hjv
          rw [hlen] at this
          exact this
        refine Or.inr (Or.inr ⟨j, hj, ?_⟩)
        rw [List.getElem?_append_left (by omega)]
        exact hjv
    · subst hie
      rw [hcat] at hv
      injection hv with hv
      have hu : u ∈ tk.dependencies := by
        rw [← hv] at hedge
        exact depEdge_children hlk hedge
      exact Or.inl (List.mem_append.mpr (Or.inl (mem_depsRev hu)))
    · have hnone : (S.take e ++ [t])[i]? = none :=
        List.getElem?_eq_none (by omega)
      rw [hnone] at hv
      cases hv
  · obtain ⟨rank, hrank⟩ := hrk
    refine ⟨rank, ?_⟩
    intro v hvV hvS u hedge
    have hvt : v ≠ t := by
      intro hvt
      refine hvS ?_
      rw [hvt]
      exact List.mem_append.mpr (Or.inr (List.mem_singleton_self t))
    have hvV2 : v ∈ V := by
      rcases List.mem_cons.mp hvV with h | h
      · exact absurd h hvt
      · exact h
    have hvS2 : v ∉ S.take e := fun hm =>
      hvS (List.mem_append.mpr (Or.inl hm))
    obtain ⟨huV, huS, hlt⟩ := hrank v hvV2 hvS2 u hedge
    refine ⟨List.mem_cons_of_mem _ huV, ?_, hlt⟩
    intro hm
    rcases List.mem_append.mp hm with hm | hm
    · exact huS hm
    · rw [List.mem_singleton.mp hm] at huV
      exact htV huV

/-! ## The inner loop: completeness invariants on an `ok` run -/

theorem not_mem_of_contains_false {l : List String} {a : String}
    (h : l.contains a = false) : a ∉ l := by
  intro hm
  have h2 : l.contains a = true := List.elem_iff.mpr hm
  rw [h2] at h
  cases h

theorem mem_of_contains_true {l : List String} {a : String}
    (h : l.contains a = true) : a ∈ l := List.elem_iff.mp h

theorem inner_ok {tasks : List (String × Task)} :
    ∀ (n : Nat) (s : CDState) (V' : List String),
      CInv tasks s → innerLoop tasks n s = .ok V' →
      (∀ x ∈ s.visited, x ∈ V')
      ∧ (∀ p ∈ s.frontier, p.1 ∈ V')
      ∧ ∃ rank, RankOk tasks V' [] rank := by
  intro n
  induction n with
  | zero =>
    intro s V' _ h
    cases h
  | succ n ih =>
    intro s V' hinv hok
    obtain ⟨F, S, V⟩ := s
    cases F with
    | nil =>
      have hV : V' = V := by
        simp only [innerLoop] at hok
        injection hok with h
        exact h.symm
      subst hV
      refine ⟨fun x hx => hx, ?_, ?_⟩
      · intro p hp
        cases hp
      · obtain ⟨hp0, hrk0⟩ := @flush_to _ _ _ 0 S.length S (by omega)
          hinv.sub_visited hinv.snodup hinv.pending hinv.rank_ex
          (fun u d hd => absurd hd (by intro h; cases h))
        rw [List.take_zero] at hrk0
        exact hrk0
    | cons pe F' =>
      obtain ⟨t, e⟩ := pe
      have he : e ≤ S.length := hinv.depth_le (t, e) (List.mem_cons_self _ _)
      simp only [innerLoop] at hok
      rw [if_pos he] at hok
      by_cases hc : (S.take e).contains t = true
      · rw [if_pos hc] at hok
        cases hok
      · rw [Bool.not_eq_true] at hc
        rw [if_neg (by rw [hc]; intro h; cases h)] at hok
        have htS : t ∉ S.take e := not_mem_of_contains_false hc
        by_cases hv : V.contains t = true
        · rw [if_pos hv] at hok
          have htV : t ∈ V := mem_of_contains_true hv
          obtain ⟨h1, h2, h3⟩ := ih ⟨F', S.take e, V⟩ V'
            (step_skip hinv htS htV) hok
          refine ⟨h1, ?_, h3⟩
          intro p hp
          rcases List.mem_cons.mp hp with h | h
          · have : p.1 = t := congrArg Prod.fst h
            rw [this]
            exact h1 t htV
          · exact h2 p h
        · rw [Bool.not_eq_true] at hv
          rw [if_neg (by rw [hv]; intro h; cases h)] at hok
          have htV : t ∉ V := not_mem_of_contains_false hv
          cases hlk : lookupTask tasks t with
          | none =>
            rw [hlk] at hok
            cases hok
          | some tk =>
            rw [hlk] at hok
            obtain ⟨h1, h2, h3⟩ := ih
              ⟨tk.dependencies.reverse.map (fun d => (d, e + 1)) ++ F',
               S.take e ++ [t], t :: V⟩ V'
              (step_expand hinv htS htV hlk) hok
            refine ⟨?_, ?_, h3⟩
            · intro x hx
              exact h1 x (List.mem_cons_of_mem _ hx)
            · intro p hp
              rcases List.mem_cons.mp hp with h | h
              · have : p.1 = t := congrArg Prod.fst h
                rw [this]
                exact h1 t (List.mem_cons_self _ _)
              · exact h2 p (List.mem_append.mpr (Or.inr h))

/-! ## The inner loop: soundness of cycle detection -/

theorem chain'_reflTransGen {r : String → String → Prop} :
    ∀ (l : List String) (a : String), List.Chain' r (a :: l) →
      ∀ z, (a :: l).getLast? = some z → Relation.ReflTransGen r a z := by
  intro l
  induction l with
  | nil =>
    intro a _ z hz
    simp only [List.getLast?_singleton, Option.some.injEq] at hz
    rw [← hz]
  | cons b l ih =>
    intro a hch z hz
    obtain ⟨hab, hch2⟩ := List.chain'_cons.mp hch
    rw [List.getLast?_cons_cons] at hz
    exact Relation.ReflTransGen.head hab (ih b hch2 z hz)

/-- A task on the chain-shaped ancestor stack whose top depends on it lies
on a dependency cycle. -/
theorem transGen_of_stack {tasks : List (String × Task)} {S' : List String}
    {t : String} (hch : List.Chain' (depEdge tasks) S') (hmem : t ∈ S')
    (hlast : ∀ z, S'.getLast? = some z → depEdge tasks z t) :
    Relation.TransGen (depEdge tasks) t t := by
  obtain ⟨pre, post, hsplit⟩ := List.append_of_mem hmem
  subst hsplit
  have hch2 : List.Chain' (depEdge tasks) (t :: post) :=
    hch.suffix (List.suffix_append pre (t :: post))
  have hz : (t :: post).getLast? = some ((t :: post).getLast (by simp)) :=
    List.getLast?_eq_getLast _ _
  have hfull : (pre ++ t :: post).getLast? = some ((t :: post).getLast (by simp)) := by
    rw [List.getLast?_append, hz]
    rfl
  have hrt := chain'_reflTransGen post t hch2 _ hz
  exact Relation.TransGen.tail' hrt (hlast _ hfull)

theorem inner_cyclic {tasks : List (String × Task)} :
    ∀ (n : Nat) (s : CDState) (m : String),
      CInv tasks s → innerLoop tasks n s = .cyclic m →
      (∃ a, Relation.TransGen (depEdge tasks) a a)
      ∧ ∃ r, m = "The dependencies are cyclic. " ++ r := by
  intro n
  induction n with
  | zero =>
    intro s m _ h
    cases h
  | succ n ih =>
    intro s m hinv hok
    obtain ⟨F, S, V⟩ := s
    cases F with
    | nil =>
      simp only [innerLoop] at hok
      cases hok
    | cons pe F' =>
      obtain ⟨t, e⟩ := pe
      have he : e ≤ S.length := hinv.depth_le (t, e) (List.mem_cons_self _ _)
      simp only [innerLoop] at hok
      rw [if_pos he] at hok
      by_cases hc : (S.take e).contains t = true
      · rw [if_pos hc] at hok
        have htS : t ∈ S.take e := mem_of_contains_true hc
        have hcyc : Relation.TransGen (depEdge tasks) t t := by
          refine transGen_of_stack
            (hinv.chain.take e) htS ?_
          intro z hz
          have hepos : 0 < e := by
            rcases Nat.eq_zero_or_pos e with h0 | h0
            · rw [h0, List.take_zero] at htS
              cases htS
            · exact h0
          have hlen : (S.take e).length = e := by
            rw [List.length_take]
            omega
          have hne : S.take e ≠ [] := by
            intro hnil
            rw [hnil] at htS
            cases htS
          rw [List.getLast?_eq_getElem?, hlen,
            List.getElem?_take_of_lt (by omega)] at hz
          exact hinv.edge_inv (t, e) (List.mem_cons_self _ _) hepos z hz
        have hm : m = cyclicMsg (S.take e) t := by
          injection hok with h
          exact h.symm
        refine ⟨⟨t, hcyc⟩, ?_⟩
        rw [hm, cyclicMsg]
        exact ⟨_, rfl⟩
      · rw [Bool.not_eq_true] at hc
        rw [if_neg (by rw [hc]; intro h; cases h)] at hok
        have htS : t ∉ S.take e := not_mem_of_contains_false hc
        by_cases hv : V.contains t = true
        · rw [if_pos hv] at hok
          exact ih ⟨F', S.take e, V⟩ m
            (step_skip hinv htS (mem_of_contains_true hv)) hok
        · rw [Bool.not_eq_true] at hv
          rw [if_neg (by rw [hv]; intro h; cases h)] at hok
          cases hlk : lookupTask tasks t with
          | none =>
            rw [hlk] at hok
            cases hok
          | some tk =>
            rw [hlk] at hok
            exact ih _ m
              (step_expand hinv htS (not_mem_of_contains_false hv) hlk) hok

/-! ## The inner loop: panic-freedom and termination -/

theorem fkeys_skip {tasks : List (String × Task)} {t : String} {e : Nat}
    {F' : List (String × Nat)} {S V : List String}
    (h : FKeys tasks ⟨(t, e) :: F', S, V⟩) :
    FKeys tasks ⟨F', S.take e, V⟩ := by
  intro p hp
  exact h p (List.mem_cons_of_mem _ hp)

theorem fkeys_expand {tasks : List (String × Task)} {t : String} {e : Nat}
    {F' : List (String × Nat)} {S V : List String} {tk : Task}
    (hres : Resolve tasks) (hlk : lookupTask tasks t = some tk)
    (h : FKeys tasks ⟨(t, e) :: F', S, V⟩) :
    FKeys tasks ⟨tk.dependencies.reverse.map (fun d => (d, e + 1)) ++ F',
      S.take e ++ [t], t :: V⟩ := by
  intro p hp
  rcases List.mem_append.mp hp with hm | hm
  · obtain ⟨hpd, _⟩ := mem_depsRev_inv (by
      have hmk : (p.1, p.2) ∈ tk.dependencies.reverse.map
          (fun d => (d, e + 1)) := by
        rw [Prod.mk.eta]
        exact hm
      exact hmk)
    exact hres (t, tk) (lookupTask_mem hlk) p.1 hpd
  · exact h p (List.mem_cons_of_mem _ hm)

theorem inner_no_panic {tasks : List (String × Task)} (hres : Resolve tasks) :
    ∀ (n : Nat) (s : CDState), CInv tasks s → FKeys tasks s →
      innerLoop tasks n s ≠ .panicked := by
  intro n
  induction n with
  | zero =>
    intro s _ _ h
    cases h
  | succ n ih =>
    intro s hinv hfk hok
    obtain ⟨F, S, V⟩ := s
    cases F with
    | nil =>
      simp only [innerLoop] at hok
      cases hok
    | cons pe F' =>
      obtain ⟨t, e⟩ := pe
      have he : e ≤ S.length := hinv.depth_le (t, e) (List.mem_cons_self _ _)
      simp only [innerLoop] at hok
      rw [if_pos he] at hok
      by_cases hc : (S.take e).contains t = true
      · rw [if_pos hc] at hok
        cases hok
      · rw [Bool.not_eq_true] at hc
        rw [if_neg (by rw [hc]; intro h; cases h)] at hok
        have htS : t ∉ S.take e := not_mem_of_contains_false hc
        by_cases hv : V.contains t = true
        · rw [if_pos hv] at hok
          exact ih ⟨F', S.take e, V⟩
            (step_skip hinv htS (mem_of_contains_true hv))
            (fkeys_skip hfk) hok
        · rw [Bool.not_eq_true] at hv
          rw [if_neg (by rw [hv]; intro h; cases h)] at hok
          obtain ⟨tk, hlk⟩ := lookupTask_isSome_of_mem_keys
            (hfk (t, e) (List.mem_cons_self _ _))
          rw [hlk] at hok
          exact ih _
            (step_expand hinv htS (not_mem_of_contains_false hv) hlk)
            (fkeys_expand hres hlk hfk) hok

theorem contains_cons_of_ne {V : List String} {a t : String} (h : a ≠ t) :
    (t :: V).contains a = V.contains a := by
  rw [List.contains_cons]
  rw [beq_eq_false_iff_ne.mpr h]
  rw [Bool.false_or]

theorem sum_filter_remove {tasks : List (String × Task)} :
    ∀ {V : List String} {t : String} {tk : Task},
    (tasks.map Prod.fst).Nodup → (t, tk) ∈ tasks → t ∉ V →
    ((tasks.filter (fun p => !((t :: V).contains p.1))).map
        (fun p => p.2.dependencies.length + 1)).sum
      + (tk.dependencies.length + 1)
    = ((tasks.filter (fun p => !(V.contains p.1))).map
        (fun p => p.2.dependencies.length + 1)).sum := by
  induction tasks with
  | nil =>
    intro V t tk _ hmem _
    cases hmem
  | cons q rest ih =>
    intro V t tk hnd hmem htV
    have hnd2 := List.nodup_cons.mp (by
      rw [List.map_cons] at hnd
      exact hnd)
    by_cases hq : q.1 = t
    · have hqm : q = (t, tk) := by
        rcases List.mem_cons.mp hmem with h | h
        · exact h.symm
        · exfalso
          refine hnd2.1 ?_
          rw [hq]
          exact List.mem_map.mpr ⟨(t, tk), h, rfl⟩
      subst hqm
      have hfilters : rest.filter (fun p => !((t :: V).contains p.1))
          = rest.filter (fun p => !(V.contains p.1)) := by
        refine List.filter_congr ?_
        intro p hp
        have hpt : p.1 ≠ t := by
          intro hpt
          refine hnd2.1 ?_
          rw [hq, ← hpt]
          exact List.mem_map.mpr ⟨p, hp, rfl⟩
        rw [contains_cons_of_ne hpt]
      have hkeep : (V.contains (t, tk).1) = false := by
        cases hcv : V.contains (t, tk).1 with
        | false => rfl
        | true => exact absurd (mem_of_contains_true hcv) htV
      have hdrop : ((t :: V).contains (t, tk).1) = true := by
        rw [List.contains_cons]
        simp
      rw [List.filter_cons, List.filter_cons, hkeep, hdrop]
      simp only [Bool.not_true, Bool.not_false, Bool.false_eq_true, if_false,
        if_true, List.map_cons, List.sum_cons, hfilters]
      omega
    · have hmem2 : (t, tk) ∈ rest := by
        rcases List.mem_cons.mp hmem with h | h
        · exfalso
          refine hq ?_
          rw [← h]
        · exact h
      have hih := ih hnd2.2 hmem2 htV
      have hcq : ((t :: V).contains q.1) = (V.contains q.1) :=
        contains_cons_of_ne hq
      rw [List.filter_cons, List.filter_cons, hcq]
      cases hvq : V.contains q.1 with
      | true =>
        simp only [Bool.not_true, Bool.false_eq_true, if_false]
        exact hih
      | false =>
        simp only [Bool.not_false, if_true, List.map_cons, List.sum_cons]
        omega

theorem inner_no_fuelOut {tasks : List (String × Task)}
    (hnd : (tasks.map Prod.fst).Nodup) :
    ∀ (n : Nat) (s : CDState), measureCD tasks s < n →
      innerLoop tasks n s ≠ .fuelOut := by
  intro n
  induction n with
  | zero =>
    intro s hm
    omega
  | succ n ih =>
    intro s hm hok
    obtain ⟨F, S, V⟩ := s
    cases F with
    | nil =>
      simp only [innerLoop] at hok
      cases hok
    | cons pe F' =>
      obtain ⟨t, e⟩ := pe
      simp only [innerLoop] at hok
      by_cases he : e ≤ S.length
      · rw [if_pos he] at hok
        by_cases hc : (S.take e).contains t = true
        · rw [if_pos hc] at hok
          cases hok
        · rw [Bool.not_eq_true] at hc
          rw [if_neg (by rw [hc]; intro h; cases h)] at hok
          by_cases hv : V.contains t = true
          · rw [if_pos hv] at hok
            refine ih ⟨F', S.take e, V⟩ ?_ hok
            have hmeq : measureCD tasks ⟨F', S.take e, V⟩ + 1
                = measureCD tasks ⟨(t, e) :: F', S, V⟩ := by
              simp only [measureCD, List.length_cons]
              omega
            omega
          · rw [Bool.not_eq_true] at hv
            rw [if_neg (by rw [hv]; intro h; cases h)] at hok
            cases hlk : lookupTask tasks t with
            | none =>
              rw [hlk] at hok
              cases hok
            | some tk =>
              rw [hlk] at hok
              refine ih _ ?_ hok
              have htV : t ∉ V := not_mem_of_contains_false hv
              have hsum := sum_filter_remove hnd (lookupTask_mem hlk) htV
              have hmeq : measureCD tasks
                  ⟨tk.dependencies.reverse.map (fun d => (d, e + 1)) ++ F',
                   S.take e ++ [t], t :: V⟩ + 2
                  = measureCD tasks ⟨(t, e) :: F', S, V⟩ := by
                simp only [measureCD, List.length_cons, List.length_append,
                  List.length_map, List.length_reverse]
                omega
              omega
      · rw [if_neg he] at hok
        cases hok

/-! ## The outer loop and `cycleCheck` -/

theorem cinv_init {tasks : List (String × Task)} {k : String}
    {V : List String} (hrk : ∃ rank, RankOk tasks V [] rank) :
    CInv tasks ⟨[(k, 0)], [], V⟩ := by
  refine ⟨?_, ?_, ?_, ?_, ?_, ?_, ?_, hrk⟩
  · intro x hx
    cases hx
  · exact List.nodup_nil
  · exact List.pairwise_singleton _ _
  · intro p hp
    have hp0 : p = (k, 0) := List.mem_singleton.mp hp
    rw [hp0]
    exact le_refl _
  · intro p hp hpos v hv
    have hp0 : p = (k, 0) := List.mem_singleton.mp hp
    rw [hp0] at hpos
    cases hpos
  · exact List.chain'_nil
  · intro i u v hv _
    cases hv

theorem sum_filter_le {tasks : List (String × Task)}
    (p : String × Task → Bool) :
    ((tasks.filter p).map (fun q => q.2.dependencies.length + 1)).sum
      ≤ (tasks.map (fun q => q.2.dependencies.length + 1)).sum := by
  induction tasks with
  | nil => exact le_refl _
  | cons q rest ih =>
    rw [List.filter_cons]
    cases hp : p q with
    | true =>
      simp only [if_true, List.map_cons, List.sum_cons]
      omega
    | false =>
      simp only [Bool.false_eq_true, if_false, List.map_cons, List.sum_cons]
      omega

theorem measure_init_lt_fuel {tasks : List (String × Task)} {k : String}
    {V : List String} :
    measureCD tasks ⟨[(k, 0)], [], V⟩ < cycleFuel tasks := by
  have hle := @sum_filter_le tasks
    (fun p => !(V.contains p.1))
  simp only [measureCD, cycleFuel, List.length_singleton]
  omega

theorem cycleOuter_props {tasks : List (String × Task)}
    (hres : Resolve tasks) (hnd : (tasks.map Prod.fst).Nodup) :
    ∀ (ks : List String) (V : List String),
      (∀ k ∈ ks, k ∈ tasks.map Prod.fst) →
      (∃ rank, RankOk tasks V [] rank) →
      (cycleOuter tasks ks V ≠ .panicked
        ∧ cycleOuter tasks ks V ≠ .fuelOut)
      ∧ (cycleOuter tasks ks V = .okRes →
          ∃ V2, (∀ k ∈ ks, k ∈ V2) ∧ (∀ x ∈ V, x ∈ V2)
            ∧ ∃ rank, RankOk tasks V2 [] rank)
      ∧ (∀ m, cycleOuter tasks ks V = .cyclic m →
          (∃ a, Relation.TransGen (depEdge tasks) a a)
          ∧ ∃ r, m = "The dependencies are cyclic. " ++ r) := by
  intro ks
  induction ks with
  | nil =>
    intro V _ hrk
    refine ⟨⟨?_, ?_⟩, ?_, ?_⟩
    · intro h
      cases h
    · intro h
      cases h
    · intro _
      exact ⟨V, fun k hk => absurd hk (List.not_mem_nil k),
        fun x hx => hx, hrk⟩
    · intro m h
      cases h
  | cons k ks ih =>
    intro V hkeys hrk
    have hinit : CInv tasks ⟨[(k, 0)], [], V⟩ := cinv_init hrk
    have hfk : FKeys tasks ⟨[(k, 0)], [], V⟩ := by
      intro p hp
      rw [List.mem_singleton.mp hp]
      exact hkeys k (List.mem_cons_self _ _)
    cases hres1 : innerLoop tasks (cycleFuel tasks) ⟨[(k, 0)], [], V⟩ with
    | ok V1 =>
      obtain ⟨h1, h2, h3⟩ := inner_ok (cycleFuel tasks) _ V1 hinit hres1
      have hkV1 : k ∈ V1 := h2 (k, 0) (List.mem_cons_self _ _)
      have hstep : cycleOuter tasks (k :: ks) V = cycleOuter tasks ks V1 := by
        simp only [cycleOuter, hres1]
      obtain ⟨hnp, hok2, hcy2⟩ := ih V1
        (fun k2 hk2 => hkeys k2 (List.mem_cons_of_mem _ hk2)) h3
      rw [hstep]
      refine ⟨hnp, ?_, hcy2⟩
      intro hok3
      obtain ⟨V2, hk2, hmono, hrk2⟩ := hok2 hok3
      refine ⟨V2, ?_, fun x hx => hmono x (h1 x hx), hrk2⟩
      intro k2 hk2m
      rcases List.mem_cons.mp hk2m with h | h
      · rw [h]
        exact hmono k hkV1
      · exact hk2 k2 h
    | cyclic m =>
      have hstep : cycleOuter tasks (k :: ks) V = .cyclic m := by
        simp only [cycleOuter, hres1]
      obtain ⟨hcyc, hr⟩ := inner_cyclic (cycleFuel tasks) _ m hinit hres1
      rw [hstep]
      refine ⟨⟨?_, ?_⟩, ?_, ?_⟩
      · intro h
        cases h
      · intro h
        cases h
      · intro h
        cases h
      · intro m2 h
        injection h with h
        rw [← h]
        exact ⟨hcyc, hr⟩
    | panicked =>
      exact absurd hres1 (inner_no_panic hres (cycleFuel tasks) _ hinit hfk)
    | fuelOut =>
      exact absurd hres1
        (inner_no_fuelOut hnd (cycleFuel tasks) _ measure_init_lt_fuel)

theorem acyclic_of_rank {tasks : List (String × Task)} {V2 : List String}
    {rank : String → Nat}
    (hkeys : ∀ k ∈ tasks.map Prod.fst, k ∈ V2)
    (hrk : RankOk tasks V2 [] rank) : Acyclic tasks := by
  intro a hta
  have hdec : ∀ x y, Relation.TransGen (depEdge tasks) x y →
      rank y < rank x := by
    intro x y h
    induction h with
    | single h1 =>
      have hx : x ∈ V2 := hkeys x (depEdge_mem_keys h1)
      exact (hrk x hx (List.not_mem_nil x) _ h1).2.2
    | tail ht he ih =>
      rename_i b c
      have hb : b ∈ V2 := hkeys b (depEdge_mem_keys he)
      have := (hrk b hb (List.not_mem_nil b) c he).2.2
      omega
  exact absurd (hdec a a hta) (lt_irrefl _)

/-- The cycle-detection phase accepts exactly the acyclic manifests, never
panics and never exhausts its fuel, and every rejection message begins with
"The dependencies are cyclic. ". -/
theorem cycleCheck_spec {tasks : List (String × Task)}
    (hres : Resolve tasks) (hnd : (tasks.map Prod.fst).Nodup) :
    (cycleCheck tasks = .okRes ↔ Acyclic tasks)
    ∧ (∀ m, cycleCheck tasks = .cyclic m →
        ∃ r, m = "The dependencies are cyclic. " ++ r)
    ∧ cycleCheck tasks ≠ .panicked ∧ cycleCheck tasks ≠ .fuelOut := by
  have hrk0 : ∃ rank, RankOk tasks [] [] rank := by
    refine ⟨fun _ => 0, ?_⟩
    intro v hv
    cases hv
  obtain ⟨⟨hnp, hnf⟩, hok, hcy⟩ := cycleOuter_props hres hnd
    (tasks.map Prod.fst) [] (fun k hk => hk) hrk0
  refine ⟨⟨?_, ?_⟩, ?_, hnp, hnf⟩
  · intro h
    obtain ⟨V2, hk2, _, rank, hrk2⟩ := hok h
    exact acyclic_of_rank hk2 hrk2
  · intro hac
    cases hc : cycleCheck tasks with
    | okRes => rfl
    | cyclic m =>
      obtain ⟨⟨a, hta⟩, _⟩ := hcy m hc
      exact absurd hta (hac a)
    | panicked => exact absurd hc hnp
    | fuelOut => exact absurd hc hnf
  · intro m hm
    exact (hcy m hm).2

theorem isKeyB_true_of_mem {tasks : List (String × Task)} {d : String}
    (h : d ∈ tasks.map Prod.fst) : isKeyB tasks d = true := by
  obtain ⟨p, hp, hpd⟩ := List.mem_map.mp h
  rw [isKeyB, List.any_eq_true]
  exact ⟨p, hp, by simp [hpd]⟩

theorem violationsOf_nil_of_resolve {tasks : List (String × Task)}
    (hres : Resolve tasks) : violationsOf tasks = [] := by
  rw [violationsOf, List.filterMap_eq_nil]
  intro p hp
  have hmiss : p.2.dependencies.filter (fun d => !(isKeyB tasks d)) = [] := by
    rw [List.filter_eq_nil]
    intro d hd
    rw [isKeyB_true_of_mem (hres p hp d hd)]
    intro h
    cases h
  simp only [hmiss, List.isEmpty_nil, if_true]

theorem validDefault_true {toastfile : Toastfile}
    (hdef : ValidDefault toastfile) :
    (match toastfile.default with
     | none => true
     | some d => isKeyB toastfile.tasks d) = true := by
  cases hd : toastfile.default with
  | none => rfl
  | some d => exact isKeyB_true_of_mem (hdef d hd)

theorem checkDependencies_eq_cycle {toastfile : Toastfile}
    (hres : Resolve toastfile.tasks) (hdef : ValidDefault toastfile) :
    checkDependencies toastfile =
      (match cycleCheck toastfile.tasks with
       | .okRes => .ok ()
       | .cyclic m => .error m
       | .panicked => .error "internal panic"
       | .fuelOut => .error "internal panic") := by
  rw [checkDependencies]
  rw [violationsOf_nil_of_resolve hres]
  rw [validDefault_true hdef]
  rfl

/-- C1: for a manifest that passes the path, caching, default-task and
dependency-existence checks, `parse` succeeds exactly when the dependency
relation is acyclic, and on any cycle it fails with a message containing
"cyclic". -/
theorem c1_parse_acyclic (y : Yaml) (toastfile : Toastfile)
    (hde : deserializeToastfile y = .ok toastfile)
    (hp : checkPaths toastfile = .ok ())
    (hc : checkCaching toastfile = .ok ())
    (hnd : (toastfile.tasks.map Prod.fst).Nodup)
    (hres : Resolve toastfile.tasks)
    (hdef : ValidDefault toastfile) :
    ((parse y = .ok toastfile) ↔ Acyclic toastfile.tasks)
    ∧ (¬ Acyclic toastfile.tasks →
        ∃ m, parse y = .error m ∧ StrContains m "cyclic") := by
  obtain ⟨hiff, hmsg, hnp, hnf⟩ := cycleCheck_spec hres hnd
  have hparse : parse y =
      (match cycleCheck toastfile.tasks with
       | .okRes => .ok toastfile
       | .cyclic m => .error m
       | .panicked => .error "internal panic"
       | .fuelOut => .error "internal panic") := by
    rw [parse, hde, except_bind_ok, hp, except_bind_ok, hc, except_bind_ok,
      checkDependencies_eq_cycle hres hdef]
    cases cycleCheck toastfile.tasks with
    | okRes => rfl
    | cyclic m => rfl
    | panicked => rfl
    | fuelOut => rfl
  constructor
  · constructor
    · intro h
      refine hiff.mp ?_
      cases hcc : cycleCheck toastfile.tasks with
      | okRes => rfl
      | cyclic m =>
        rw [hparse, hcc] at h
        cases h
      | panicked => exact absurd hcc hnp
      | fuelOut => exact absurd hcc hnf
    · intro hac
      rw [hparse, hiff.mpr hac]
  · intro hnac
    cases hcc : cycleCheck toastfile.tasks with
    | okRes => exact absurd (hiff.mp hcc) hnac
    | cyclic m =>
      obtain ⟨r, hr⟩ := hmsg m hcc
      refine ⟨m, by rw [hparse, hcc], ?_⟩
      rw [hr]
      refine strContains_append_right r ?_
      exact strContains_of_parts
        (show "The dependencies are cyclic. "
          = "The dependencies are " ++ "cyclic" ++ ". " from rfl)
    | panicked => exact absurd hcc hnp
    | fuelOut => exact absurd hcc hnf

/-- C1 witness: a two-task acyclic manifest is accepted. -/
theorem c1_parse_acyclic_witness :
    (deserializeToastfile (Yaml.map [("image", .str "i"),
        ("tasks", .map [("a", .map [("dependencies", .seq [.str "b"])]),
                        ("b", .map [])])])
      = .ok { image := "i", default := none,
              tasks := [("a", { dependencies := ["b"] }), ("b", {})] })
    ∧ ((parse (Yaml.map [("image", .str "i"),
        ("tasks", .map [("a", .map [("dependencies", .seq [.str "b"])]),
                        ("b", .map [])])])
        = .ok { image := "i", default := none,
                tasks := [("a", { dependencies := ["b"] }), ("b", {})] })
      ↔ Acyclic [("a", { dependencies := ["b"] }), ("b", {})])
    ∧ parse (Yaml.map [("image", .str "i"),
        ("tasks", .map [("a", .map [("dependencies", .seq [.str "b"])]),
                        ("b", .map [])])])
      = .ok { image := "i", default := none,
              tasks := [("a", { dependencies := ["b"] }), ("b", {})] } := by
  have h := c1_parse_acyclic
    (Yaml.map [("image", .str "i"),
      ("tasks", .map [("a", .map [("dependencies", .seq [.str "b"])]),
                      ("b", .map [])])])
    { image := "i", default := none,
      tasks := [("a", { dependencies := ["b"] }), ("b", {})] }
    rfl rfl rfl (by decide) (by unfold Resolve; decide)
    (fun d hd => Option.noConfusion hd)
  refine ⟨rfl, h.1, ?_⟩
  exact rfl

/-- C10: on every manifest whose dependencies all resolve, the
cycle-detection loop neither panics (the `unwrap`s succeed and the
truncation count never underflows, since the ancestor stack's length always
dominates the popped depth) nor diverges: it terminates with a verdict. -/
theorem c10_cycle_loop_safe (toastfile : Toastfile)
    (hnd : (toastfile.tasks.map Prod.fst).Nodup)
    (hres : Resolve toastfile.tasks) :
    cycleCheck toastfile.tasks ≠ .panicked
    ∧ cycleCheck toastfile.tasks ≠ .fuelOut := by
  obtain ⟨_, _, hnp, hnf⟩ := cycleCheck_spec hres hnd
  exact ⟨hnp, hnf⟩

/-- C10 witness: the loop terminates without panicking on a concrete
two-task manifest with a diamond of resolving dependencies. -/
theorem c10_cycle_loop_safe_witness :
    ((([(("a" : String), ({ dependencies := ["b"] } : Task)),
        ("b", ({} : Task))]).map Prod.fst).Nodup)
    ∧ Resolve [("a", { dependencies := ["b"] }), ("b", ({} : Task))]
    ∧ cycleCheck [("a", { dependencies := ["b"] }), ("b", ({} : Task))]
      ≠ .panicked
    ∧ cycleCheck [("a", { dependencies := ["b"] }), ("b", ({} : Task))]
      ≠ .fuelOut := by
  have h := c10_cycle_loop_safe
    { image := "i", default := none,
      tasks := [("a", { dependencies := ["b"] }), ("b", ({} : Task))] }
    (by decide) (by unfold Resolve; decide)
  exact ⟨by decide, by unfold Resolve; decide, h.1, h.2⟩

/-! ## Claim C2: the reported cycle and its three phrasings -/

theorem dropWhile_split {t : String} :
    ∀ {S : List String}, t ∈ S →
      ∃ pre post, S = pre ++ t :: post ∧ t ∉ pre
        ∧ S.dropWhile (fun x => x != t) = t :: post := by
  intro S
  induction S with
  | nil => intro h; cases h
  | cons a rest ih =>
    intro h
    by_cases hat : a = t
    · subst hat
      refine ⟨[], rest, rfl, List.not_mem_nil a, ?_⟩
      rw [List.dropWhile_cons]
      simp
    · have htr : t ∈ rest := by
        rcases List.mem_cons.mp h with hh | hh
        · exact absurd hh.symm hat
        · exact hh
      obtain ⟨pre, post, hsplit, hpre, hdrop⟩ := ih htr
      refine ⟨a :: pre, post, by rw [List.cons_append, hsplit], ?_, ?_⟩
      · intro hm
        rcases List.mem_cons.mp hm with hh | hh
        · exact hat hh.symm
        · exact hpre hh
      · rw [List.dropWhile_cons]
        have hne : (a != t) = true := bne_iff_ne.mpr hat
        rw [hne]
        simp only [if_true]
        exact hdrop

/-- C2: when the traversal pops a task present in the (truncated) ancestor
set, it reports a cycle obtained as the segment of the ancestor stack after
the first occurrence of the task, with the task appended; the message uses
the claimed three phrasings by cycle length. -/
theorem c2_cycle_message (tasks : List (String × Task)) (n : Nat)
    (F : List (String × Nat)) (S V : List String) (t : String) (e : Nat)
    (he : e ≤ S.length) (ht : t ∈ S.take e) :
    ∃ pre post m,
      S.take e = pre ++ t :: post ∧ t ∉ pre
      ∧ innerLoop tasks (n + 1) ⟨(t, e) :: F, S, V⟩ = .cyclic m
      ∧ (∀ x, post ++ [t] = [x] →
          m = "The dependencies are cyclic. "
            ++ (cs x ++ " depends on itself."))
      ∧ (∀ x y, post ++ [t] = [x, y] →
          m = "The dependencies are cyclic. "
            ++ (cs x ++ " and " ++ cs y ++ " depend on each other."))
      ∧ (3 ≤ (post ++ [t]).length →
          m = "The dependencies are cyclic. "
            ++ (series (((post ++ [t]).zip ((post ++ [t]).rotate 1)).map
                (fun p => cs p.1 ++ " depends on " ++ cs p.2)) ++ ".")) := by
  obtain ⟨pre, post, hsplit, hpre, hdrop⟩ := dropWhile_split ht
  have hcyc : cycleOfStack (S.take e) t = post ++ [t] := by
    rw [cycleOfStack, hdrop, List.drop_one, List.tail_cons]
  have hloop : innerLoop tasks (n + 1) ⟨(t, e) :: F, S, V⟩
      = .cyclic (cyclicMsg (S.take e) t) := by
    simp only [innerLoop]
    rw [if_pos he, if_pos (List.elem_iff.mpr ht)]
  refine ⟨pre, post, cyclicMsg (S.take e) t, hsplit, hpre, hloop, ?_, ?_, ?_⟩
  · intro x hx
    rw [cyclicMsg, hcyc, hx]
    rfl
  · intro x y hxy
    rw [cyclicMsg, hcyc, hxy]
    rfl
  · intro h3
    rw [cyclicMsg, hcyc]
    rcases hc : post ++ [t] with _ | ⟨x, _ | ⟨y, _ | ⟨z, rest⟩⟩⟩
    · rw [hc] at h3
      simp at h3
    · rw [hc] at h3
      simp at h3
    · rw [hc] at h3
      simp at h3
    · have hrot : (x :: y :: z :: rest).rotate 1
          = (x :: y :: z :: rest).drop 1 ++ (x :: y :: z :: rest).take 1 :=
        List.rotate_eq_drop_append_take (by simp)
      rw [hrot]
      rfl

/-- C2 witness: detection on the concrete stack `[a, b]` with offending
task `a` reports the two-cycle phrasing for the cycle `[b, a]`. -/
theorem c2_cycle_message_witness :
    (2 ≤ (["a", "b"] : List String).length)
    ∧ ("a" ∈ (["a", "b"] : List String).take 2)
    ∧ ∃ pre post m,
        (["a", "b"] : List String).take 2 = pre ++ "a" :: post ∧ "a" ∉ pre
        ∧ innerLoop [] 1 ⟨[("a", 2)], ["a", "b"], []⟩ = .cyclic m
        ∧ (∀ x, post ++ ["a"] = [x] →
            m = "The dependencies are cyclic. "
              ++ (cs x ++ " depends on itself."))
        ∧ (∀ x y, post ++ ["a"] = [x, y] →
            m = "The dependencies are cyclic. "
              ++ (cs x ++ " and " ++ cs y ++ " depend on each other."))
        ∧ (3 ≤ (post ++ ["a"]).length →
            m = "The dependencies are cyclic. "
              ++ (series (((post ++ ["a"]).zip ((post ++ ["a"]).rotate 1)).map
                  (fun p => cs p.1 ++ " depends on " ++ cs p.2)) ++ ".")) :=
  ⟨by decide, by decide,
    c2_cycle_message [] 0 [] ["a", "b"] [] "a" 2 (by decide) (by decide)⟩

end Toast
